import Mathlib

/-!
Verification of the QGL pulse-sequence compiler (`Compiler.py`).

This file is a shallow embedding of the compiler core.  Modelling choices,
each matching the source:

* Samples are a parameter type `S` (numpy complex arrays in the source) and
  waveform shapes are `List S`.  Phases / frame changes are a parameter type
  `A` (float radians in the source); the elementwise multiplication
  `shape *= np.exp(1j*(entry.phase+curFrame))` is modelled by mapping an
  abstract rotation `rot : A → S → S` over the shape, `rot θ` standing for
  multiplication by `exp(i·θ)`.  Claims about the actual rotation are stated
  at `S := ℂ`, `A := ℝ`, `rot := fun θ z => Complex.exp (θ * Complex.I) * z`.
* `hash(tuple(shape))` is a content hash assumed injective (the design
  assumption stated in the repository's documentation); it is modelled as the
  identity on `List S`, so a waveform-library key is the hashed shape itself.
* Python dicts are association lists: assignment `d[k] = v` overwrites in
  place or appends a new binding, preserving insertion order.
* The package `__init__.py` next to `Compiler.py` uses Python 2 implicit
  relative imports (`from Channels import ...`), so `Compiler.py` is Python 2
  code: `padLength/2` on ints is floor division, and `np.ceil(padLength/2)`
  is applied to the already-floored integer quotient and therefore equals it.
* Operations that raise (`KeyError`, `IndexError`, the `NameError` in
  `compile_sequences`) make the enclosing computation return `none`.
-/

abbrev Chan := String

/-- Association-list lookup, modelling Python dict indexing `d[k]`. -/
def lookupA {κ β : Type} [DecidableEq κ] : List (κ × β) → κ → Option β
  | [], _ => none
  | (k, v) :: rest, key => if key = k then some v else lookupA rest key

/-- Association-list store, modelling Python dict assignment `d[k] = v`:
overwrites in place when the key is present, appends a binding otherwise. -/
def insertA {κ β : Type} [DecidableEq κ] : List (κ × β) → κ → β → List (κ × β)
  | [], key, val => [(key, val)]
  | (k, v) :: rest, key, val =>
    if key = k then (key, val) :: rest else (k, v) :: insertA rest key val

/-- Python `if k not in d: d[k] = v`, the waveform-library insert discipline
of the Phase/Frame pass. -/
def insertIfAbsent {κ β : Type} [DecidableEq κ] (l : List (κ × β)) (key : κ) (val : β) :
    List (κ × β) :=
  if (lookupA l key).isSome then l else insertA l key val

/-- A logical pulse, as consumed by `Compiler.py`: a sample-shape array, a
phase and a frame-change increment (the alignment policy lives on the block,
which is all `align` reads). -/
structure Pulse (S A : Type) where
  shape : List S
  phase : A
  frameChange : A
deriving DecidableEq

/-- A pulse block, the normalized sequence step (`p.promote()` output): a
per-channel pulse map, the block duration `maxPts` in samples, and the
alignment policy. -/
structure PulseBlock (S A : Type) where
  pulses : List (Chan × Pulse S A)
  maxPts : ℕ
  alignment : String
deriving DecidableEq

/-- The link-list instruction unit, `class LLElement`, fields in source
order.  `repeatCount` is the source's `repeat` attribute. -/
structure LLElement (S A : Type) where
  repeatCount : ℕ
  isTimeAmp : Bool
  hasTrigger : Bool
  triggerDelay1 : ℕ
  triggerDelay2 : ℕ
  key : Option (List S)
  length : ℕ
  phase : A
  frameChange : A
deriving DecidableEq

/-- Per-channel waveform library `wfLib[chan]`: content hash → sample array. -/
abbrev ChanLib (S : Type) := List (List S × List S)

/-- The waveform library `wfLib`: channel → per-channel library. -/
abbrev WFLib (S : Type) := List (Chan × ChanLib S)

/-- Source `hash_pulse(shape) = hash(tuple(shape))`, modelled as an injective
content hash, i.e. the sample list itself. -/
def hash_pulse {S : Type} (shape : List S) : List S := shape

/-- Source `TAZKey = hash_pulse(np.zeros(1, dtype=np.complex))`: the reserved
all-zero length-1 key. -/
def TAZKey (S : Type) [Zero S] : List S := hash_pulse [(0 : S)]

/-- The `LLElement.__init__` branch taking a pulse. -/
def LLElement.fromPulse {S A : Type} (p : Pulse S A) : LLElement S A :=
  ⟨1, false, false, 0, 0, some (hash_pulse p.shape), p.shape.length, p.phase, p.frameChange⟩

/-- Source `create_padding_LL(length)`: the `LLElement()` defaults with
`isTimeAmp = True`, `key = TAZKey` and the given length. -/
def create_padding_LL (S A : Type) [Zero S] [Zero A] (length : ℕ) : LLElement S A :=
  ⟨1, true, false, 0, 0, some (TAZKey S), length, 0, 0⟩

/-- Source `align(pulse, blockLength, alignment, cutoff=12)`.  Note that the
source sets `entry.length = blockLength` before branching and never resets it,
so in the split branches the signal entry keeps length `blockLength` while the
separate padding entries add `padLength` more.  In the `center` branches
Python 2 integer division makes both `np.floor(padLength/2)` and
`np.ceil(padLength/2)` equal to `padLength / 2`. -/
def align {S A : Type} [Zero S] [Zero A] (pulse : Pulse S A) (blockLength : ℕ)
    (alignment : String) (cutoff : ℕ) : List S × List (LLElement S A) :=
  let entry : LLElement S A :=
    ⟨1, false, false, 0, 0, some (hash_pulse pulse.shape), blockLength,
      pulse.phase, pulse.frameChange⟩
  let padLength := blockLength - pulse.shape.length
  let shape := pulse.shape
  if padLength = 0 then
    (shape, [entry])
  else if padLength < cutoff ∧ (alignment = "left" ∨ alignment = "right") then
    let shape2 :=
      if alignment = "left" then shape ++ List.replicate padLength (0 : S)
      else List.replicate padLength (0 : S) ++ shape
    (shape2, [{ entry with key := some (hash_pulse shape2) }])
  else if padLength < 2 * cutoff ∧ alignment = "center" then
    let shape2 :=
      List.replicate (padLength / 2) (0 : S) ++ shape ++ List.replicate (padLength / 2) (0 : S)
    (shape2, [{ entry with key := some (hash_pulse shape2) }])
  else
    if alignment = "left" then (shape, [entry, create_padding_LL S A padLength])
    else if alignment = "right" then (shape, [create_padding_LL S A padLength, entry])
    else (shape, [create_padding_LL S A (padLength / 2), entry,
                  create_padding_LL S A (padLength / 2)])

/-- Source `find_unique_channels(seq)`: the union of the blocks' channel
keys.  Python's `set` has no specified order; first-appearance order is used
here (nothing in the compiler depends on the order). -/
def find_unique_channels {S A : Type} (seq : List (PulseBlock S A)) : List Chan :=
  seq.foldl (fun acc step => acc ++ (step.pulses.map Prod.fst).filter (fun c => c ∉ acc)) []

/-- The TA-collapse step of the Phase/Frame pass:
`if np.all(shape == shape[0]): shape = shape[:1]`. -/
def taCollapse {S : Type} [DecidableEq S] : List S → List S
  | [] => []
  | s0 :: rest => if ∀ x ∈ s0 :: rest, x = s0 then [s0] else s0 :: rest

/-- One iteration of the Phase/Frame pass body over a single entry: fetch the
referenced shape, collapse constant shapes to a TA pair, rotate by
`entry.phase + curFrame`, re-deduplicate into the channel library and rebind
the entry's key.  An empty referenced shape would make `shape[0]` raise, and a
missing key raises `KeyError`; both are `none`. -/
def processEntry {S A : Type} [DecidableEq S] [Add A] (rot : A → S → S) (cl : ChanLib S)
    (curFrame : A) (e : LLElement S A) : Option (ChanLib S × LLElement S A) :=
  match e.key with
  | none => none
  | some k =>
    match lookupA cl k with
    | none => none
    | some shape =>
      match shape with
      | [] => none
      | s0 :: srest =>
        let ta : Bool := if ∀ x ∈ s0 :: srest, x = s0 then true else e.isTimeAmp
        let shape2 := (taCollapse (s0 :: srest)).map (rot (e.phase + curFrame))
        some (insertIfAbsent cl (hash_pulse shape2) shape2,
              { e with isTimeAmp := ta, key := some (hash_pulse shape2) })

/-- The Phase/Frame pass inner loop over one channel's mini-LL, threading the
running `curFrame` (advanced by `entry.frameChange` after each entry). -/
def passEntries {S A : Type} [DecidableEq S] [Add A] (rot : A → S → S) :
    ChanLib S → A → List (LLElement S A) → Option (ChanLib S × List (LLElement S A))
  | cl, _, [] => some (cl, [])
  | cl, curFrame, e :: rest =>
    match processEntry rot cl curFrame e with
    | none => none
    | some (cl2, e2) =>
      match passEntries rot cl2 (curFrame + e.frameChange) rest with
      | none => none
      | some (clF, restF) => some (clF, e2 :: restF)

/-- `logicalLLs[chan] += entries`.  The channel is always pre-initialised by
`compile_sequence` (a missing channel would raise `KeyError` in Python; the
`[]` case below is unreachable in every use). -/
def appendA {β : Type} : List (Chan × List β) → Chan → List β → List (Chan × List β)
  | [], _, _ => []
  | (k, v) :: rest, key, es =>
    if key = k then (k, v ++ es) :: rest else (k, v) :: appendA rest key es

/-- The per-channel body of the first (link-list building) pass for one
block: either align the channel's pulse and record its waveform, or append an
identity padding entry.  The source guard `if hash_pulse(wf) not in wfLib:`
tests the outer dict, whose keys are channel names; a waveform hash never
equals a channel name, so the guard always holds and the assignment
`wfLib[chan][hash_pulse(wf)] = wf` is unconditional. -/
def addBlockChan {S A : Type} [DecidableEq S] [Zero S] [Zero A]
    (block : PulseBlock S A) (chan : Chan)
    (st : WFLib S × List (Chan × List (LLElement S A))) :
    Option (WFLib S × List (Chan × List (LLElement S A))) :=
  match lookupA block.pulses chan with
  | some pulse =>
    let wfEntry := align pulse block.maxPts block.alignment 12
    match lookupA st.1 chan with
    | none => none
    | some cl =>
      some (insertA st.1 chan (insertA cl (hash_pulse wfEntry.1) wfEntry.1),
            appendA st.2 chan wfEntry.2)
  | none => some (st.1, appendA st.2 chan [create_padding_LL S A block.maxPts])

/-- The inner `for chan in channels:` loop of the first pass. -/
def addBlockChans {S A : Type} [DecidableEq S] [Zero S] [Zero A] (block : PulseBlock S A) :
    List Chan → WFLib S × List (Chan × List (LLElement S A)) →
    Option (WFLib S × List (Chan × List (LLElement S A)))
  | [], st => some st
  | c :: cs, st =>
    match addBlockChan block c st with
    | none => none
    | some st2 => addBlockChans block cs st2

/-- The outer `for block in seq:` loop of the first pass; zero-length blocks
are skipped entirely. -/
def buildLLs {S A : Type} [DecidableEq S] [Zero S] [Zero A] (channels : List Chan) :
    List (PulseBlock S A) → WFLib S × List (Chan × List (LLElement S A)) →
    Option (WFLib S × List (Chan × List (LLElement S A)))
  | [], st => some st
  | block :: rest, st =>
    if block.maxPts = 0 then buildLLs channels rest st
    else
      match addBlockChans block channels st with
      | none => none
      | some st2 => buildLLs channels rest st2

/-- The `for chan in channels:` initialisation loop of `compile_sequence`:
new channels get the reserved `{TAZKey: np.zeros(1)}` library. -/
def initChannels {S : Type} [Zero S] (channels : List Chan) (wfLib : WFLib S) : WFLib S :=
  channels.foldl
    (fun lib chan =>
      if (lookupA lib chan).isSome then lib
      else insertA lib chan [(TAZKey S, [(0 : S)])])
    wfLib

/-- The Phase/Frame pass outer loop over `logicalLLs.items()`: each channel's
mini-LL is processed against its own channel library, which is written back
(the source mutates `wfLib[chan]` in place). -/
def passChannels {S A : Type} [DecidableEq S] [Zero A] [Add A] (rot : A → S → S) :
    List (Chan × List (LLElement S A)) → WFLib S →
    Option (List (Chan × List (LLElement S A)) × WFLib S)
  | [], lib => some ([], lib)
  | (chan, ll) :: rest, lib =>
    match lookupA lib chan with
    | none => none
    | some cl =>
      match passEntries rot cl (0 : A) ll with
      | none => none
      | some (cl2, ll2) =>
        match passChannels rot rest (insertA lib chan cl2) with
        | none => none
        | some (restOut, libF) => some ((chan, ll2) :: restOut, libF)

/-- Source `compile_sequence(seq, wfLib)`: normalize (the input is taken
already promoted to blocks, `promote()` being the identity on blocks), find
the channels, initialise their libraries, run the link-list building pass and
then the Phase/Frame pass. -/
def compile_sequence {S A : Type} [DecidableEq S] [Zero S] [Zero A] [Add A]
    (rot : A → S → S) (seq : List (PulseBlock S A)) (wfLib : WFLib S) :
    Option (List (Chan × List (LLElement S A)) × WFLib S) :=
  let channels := find_unique_channels seq
  let lib0 := initChannels channels wfLib
  let lls0 := channels.map (fun c => (c, ([] : List (LLElement S A))))
  match buildLLs channels seq (lib0, lls0) with
  | none => none
  | some (lib1, lls1) =>
    match passChannels rot lls1 lib1 with
    | none => none
    | some (lls2, lib2) => some (lls2, lib2)

/-- Per-channel program output: an ordered list of mini-LLs per channel. -/
abbrev LinkLists (S A : Type) := List (Chan × List (List (LLElement S A)))

/-- The two input shapes `compile_sequences` distinguishes with
`isinstance(seqs[0], list)`: a list of sequences, or a flat single sequence. -/
inductive SeqInput (S A : Type) where
  | nested (seqs : List (List (PulseBlock S A)))
  | flat (seq : List (PulseBlock S A))
deriving DecidableEq

/-- `linkLists[chan].append(miniLL[chan])` for every prototype channel; a
channel of the prototype missing from `miniLL` raises `KeyError` (`none`).
Channels of `miniLL` not in `linkLists` are silently ignored. -/
def appendEach {S A : Type} :
    LinkLists S A → List (Chan × List (LLElement S A)) → Option (LinkLists S A)
  | [], _ => some []
  | (c, ls) :: rest, m =>
    match lookupA m c with
    | none => none
    | some ll =>
      match appendEach rest m with
      | none => none
      | some restOut => some ((c, ls ++ [ll]) :: restOut)

/-- The `for seq in seqs[1:]:` loop of `compile_sequences`. -/
def compileSeqsGo {S A : Type} [DecidableEq S] [Zero S] [Zero A] [Add A]
    (rot : A → S → S) :
    List (List (PulseBlock S A)) → LinkLists S A → WFLib S →
    Option (LinkLists S A × WFLib S)
  | [], lls, lib => some (lls, lib)
  | s :: ss, lls, lib =>
    match compile_sequence rot s lib with
    | none => none
    | some (m, lib2) =>
      match appendEach lls m with
      | none => none
      | some lls2 => compileSeqsGo rot ss lls2 lib2

/-- Source `compile_sequences(seqs)`.  The nested branch threads one shared
waveform library through every sequence, using the first sequence as channel
prototype.  The flat branch executes `compile_sequence(seq)` where the name
`seq` is unbound (the parameter is `seqs`), so it raises `NameError` before
producing anything; an empty input raises `IndexError` at `seqs[0]`. -/
def compile_sequences {S A : Type} [DecidableEq S] [Zero S] [Zero A] [Add A]
    (rot : A → S → S) : SeqInput S A → Option (LinkLists S A × WFLib S)
  | .flat _ => none
  | .nested [] => none
  | .nested (s0 :: rest) =>
    match compile_sequence rot s0 [] with
    | none => none
    | some (m0, lib0) => compileSeqsGo rot rest (m0.map fun p => (p.1, [p.2])) lib0

/-- Total sample length of a mini-LL, as read off the entries' `length`
fields. -/
def sumLengths {S A : Type} (ll : List (LLElement S A)) : ℕ :=
  (ll.map LLElement.length).sum

/-- The cumulative frame in front of the k-th entry of a mini-LL:
the sum of the first k entries' `frameChange` fields. -/
def frameBefore {S A : Type} [AddCommMonoid A] (ll : List (LLElement S A)) (k : ℕ) : A :=
  ((ll.take k).map LLElement.frameChange).sum

/-- A channel library whose every binding stores a shape under that shape's
own hash; with the injective-hash model this means value = key.  All the
libraries the compiler builds are of this form. -/
def selfKeyed {S : Type} (cl : ChanLib S) : Prop := ∀ p ∈ cl, p.2 = p.1

/-! ### Association-list lemmas -/

section AssocLemmas

variable {κ β : Type} [DecidableEq κ]

@[simp] theorem lookupA_nil (k : κ) : lookupA ([] : List (κ × β)) k = none := rfl

theorem lookupA_cons (k0 : κ) (v0 : β) (l : List (κ × β)) (k : κ) :
    lookupA ((k0, v0) :: l) k = if k = k0 then some v0 else lookupA l k := rfl

@[simp] theorem lookupA_insertA_self (l : List (κ × β)) (k : κ) (v : β) :
    lookupA (insertA l k v) k = some v := by
  induction l with
  | nil => simp [insertA, lookupA]
  | cons p rest ih =>
    obtain ⟨k0, v0⟩ := p
    by_cases h : k = k0
    · simp [insertA, h, lookupA]
    · simp [insertA, h, lookupA, ih]

theorem lookupA_insertA_ne (l : List (κ × β)) {k k' : κ} (v : β) (h : k ≠ k') :
    lookupA (insertA l k' v) k = lookupA l k := by
  induction l with
  | nil => simp [insertA, lookupA, h]
  | cons p rest ih =>
    obtain ⟨k0, v0⟩ := p
    by_cases h0 : k' = k0
    · subst h0
      simp [insertA, lookupA, h]
    · by_cases h1 : k = k0
      · simp [insertA, h0, lookupA, h1]
      · simp [insertA, h0, lookupA, h1, ih]

theorem insertA_eq_self {l : List (κ × β)} {k : κ} {v : β} (h : lookupA l k = some v) :
    insertA l k v = l := by
  induction l with
  | nil => simp [lookupA] at h
  | cons p rest ih =>
    obtain ⟨k0, v0⟩ := p
    by_cases h0 : k = k0
    · subst h0
      simp [lookupA] at h
      simp [insertA, h]
    · simp [lookupA, h0] at h
      simp [insertA, h0, ih h]

theorem lookupA_mem {l : List (κ × β)} {k : κ} {v : β} (h : lookupA l k = some v) :
    (k, v) ∈ l := by
  induction l with
  | nil => simp [lookupA] at h
  | cons p rest ih =>
    obtain ⟨k0, v0⟩ := p
    by_cases h0 : k = k0
    · subst h0
      simp [lookupA] at h
      simp [h]
    · simp [lookupA, h0] at h
      simp [ih h]

theorem lookupA_eq_none_iff (l : List (κ × β)) (k : κ) :
    lookupA l k = none ↔ k ∉ l.map Prod.fst := by
  induction l with
  | nil => simp [lookupA]
  | cons p rest ih =>
    obtain ⟨k0, v0⟩ := p
    by_cases h0 : k = k0
    · subst h0
      simp [lookupA]
    · simp [lookupA, h0, ih]

theorem lookupA_isSome_iff (l : List (κ × β)) (k : κ) :
    (lookupA l k).isSome ↔ k ∈ l.map Prod.fst := by
  rw [← Decidable.not_not (p := k ∈ l.map Prod.fst), ← lookupA_eq_none_iff]
  cases h : lookupA l k <;> simp [h]

theorem mem_insertA {l : List (κ × β)} {k : κ} {v : β} {p : κ × β}
    (h : p ∈ insertA l k v) : p = (k, v) ∨ p ∈ l := by
  induction l with
  | nil => simpa [insertA] using h
  | cons q rest ih =>
    obtain ⟨k0, v0⟩ := q
    by_cases h0 : k = k0
    · subst h0
      simp [insertA] at h
      rcases h with h | h
      · exact Or.inl h
      · exact Or.inr (by simp [h])
    · simp [insertA, h0] at h
      rcases h with h | h
      · exact Or.inr (by simp [h])
      · rcases ih h with h1 | h1
        · exact Or.inl h1
        · exact Or.inr (by simp [h1])

theorem keys_insertA_subset {l : List (κ × β)} {k : κ} {v : β} {k' : κ}
    (h : k' ∈ (insertA l k v).map Prod.fst) : k' = k ∨ k' ∈ l.map Prod.fst := by
  simp only [List.mem_map] at h
  obtain ⟨p, hp, rfl⟩ := h
  rcases mem_insertA hp with h1 | h1
  · exact Or.inl (by simp [h1])
  · exact Or.inr (List.mem_map_of_mem _ h1)

theorem keysNodup_insertA {l : List (κ × β)} (k : κ) (v : β)
    (h : (l.map Prod.fst).Nodup) : ((insertA l k v).map Prod.fst).Nodup := by
  induction l with
  | nil => simp [insertA]
  | cons p rest ih =>
    obtain ⟨k0, v0⟩ := p
    simp only [List.map_cons, List.nodup_cons] at h
    by_cases h0 : k = k0
    · subst h0
      simpa [insertA] using h
    · simp only [insertA, if_neg h0, List.map_cons, List.nodup_cons]
      refine ⟨fun hmem => ?_, ih h.2⟩
      rcases keys_insertA_subset hmem with h1 | h1
      · exact h0 (h1.symm)
      · exact h.1 h1

theorem lookupA_insertIfAbsent_of_some {l : List (κ × β)} {k : κ} {v : β} (k' : κ) (v' : β)
    (h : lookupA l k = some v) : lookupA (insertIfAbsent l k' v') k = some v := by
  unfold insertIfAbsent
  split
  · exact h
  · rename_i habs
    have hne : k ≠ k' := by
      rintro rfl
      rw [h] at habs
      simp at habs
    rw [lookupA_insertA_ne _ _ hne, h]

theorem insertIfAbsent_of_isSome {l : List (κ × β)} {k : κ} (v : β)
    (h : (lookupA l k).isSome) : insertIfAbsent l k v = l := by
  unfold insertIfAbsent
  rw [if_pos h]

theorem lookupA_insertIfAbsent_self_isSome (l : List (κ × β)) (k : κ) (v : β) :
    (lookupA (insertIfAbsent l k v) k).isSome := by
  unfold insertIfAbsent
  split
  · assumption
  · simp

theorem keysNodup_insertIfAbsent {l : List (κ × β)} (k : κ) (v : β)
    (h : (l.map Prod.fst).Nodup) : ((insertIfAbsent l k v).map Prod.fst).Nodup := by
  unfold insertIfAbsent
  split
  · exact h
  · exact keysNodup_insertA k v h

end AssocLemmas

/-! ### Self-keyed library lemmas -/

section SelfKeyedLemmas

variable {S : Type} [DecidableEq S]

omit [DecidableEq S] in
theorem selfKeyed_nil : selfKeyed ([] : ChanLib S) := by
  intro p hp
  simp at hp

theorem selfKeyed.lookup {cl : ChanLib S} (hsk : selfKeyed cl) {k v : List S}
    (h : lookupA cl k = some v) : v = k :=
  hsk _ (lookupA_mem h)

theorem selfKeyed.insertA_same {cl : ChanLib S} (hsk : selfKeyed cl) (k : List S) :
    selfKeyed (insertA cl k k) := by
  intro p hp
  rcases mem_insertA hp with h | h
  · simp [h]
  · exact hsk _ h

theorem selfKeyed.insertIfAbsent_same {cl : ChanLib S} (hsk : selfKeyed cl) (k : List S) :
    selfKeyed (insertIfAbsent cl k k) := by
  unfold insertIfAbsent
  split
  · exact hsk
  · exact hsk.insertA_same k

theorem selfKeyed.lookup_insertIfAbsent_same {cl : ChanLib S} (hsk : selfKeyed cl)
    (k : List S) : lookupA (insertIfAbsent cl k k) k = some k := by
  unfold insertIfAbsent
  split
  · rename_i h
    obtain ⟨v, hv⟩ := Option.isSome_iff_exists.mp h
    rw [hv, hsk.lookup hv]
  · simp

end SelfKeyedLemmas

/-! ### Concrete model instantiation for evaluation -/

/-- Concrete instantiation of the sample/angle parameters (`S := ℤ`,
`A := ℚ`) with a trivial rotation, used to evaluate the model on concrete
inputs; lengths, entry structure and key plumbing do not depend on `rot`. -/
def rotQ : ℚ → ℤ → ℤ := fun _ z => z

/-- C2 (code bug): for a 1-sample pulse in a 13-sample left-aligned block the
pad (12) reaches the cutoff, and `align` emits the unpadded shape `[1]`
together with a signal entry of length 13 (the source leaves
`entry.length = blockLength`) followed by an all-zero padding entry of length
12 — the `length` fields sum to 25, not to the block length 13 as the claim
requires. -/
theorem c2_split_lengths_exceed_block :
    (align (⟨[1], 0, 0⟩ : Pulse ℤ ℚ) 13 "left" 12).1 = [1] ∧
    (align (⟨[1], 0, 0⟩ : Pulse ℤ ℚ) 13 "left" 12).2.map LLElement.length = [13, 12] ∧
    sumLengths (align (⟨[1], 0, 0⟩ : Pulse ℤ ℚ) 13 "left" 12).2 ≠ 13 := by
  decide

/-- C1 (code bug): compiling one 13-sample block holding a full-length pulse
on channel `a` and a 1-sample pulse on channel `b` yields mini-LL length sums
13 for `a` but 25 for `b` — the synchronization invariant fails, because
`align`'s split branch emits a signal entry of length `blockLength` plus
padding of length `padLength` on top of it. -/
theorem c1_sync_invariant_violated :
    (compile_sequence rotQ
        [⟨[("a", ⟨List.replicate 13 1, 0, 0⟩), ("b", ⟨[1], 0, 0⟩)], 13, "left"⟩] []).map
        (fun rw => ((lookupA rw.1 "a").map sumLengths, (lookupA rw.1 "b").map sumLengths)) =
      some (some 13, some 25) ∧ (25 : ℕ) ≠ 13 := by
  decide

/-- C5 (code bug): on a flat (single-sequence) input, the source's else
branch executes `compile_sequence(seq)` where the name `seq` is unbound (the
parameter is `seqs`), raising `NameError` before any normalization happens;
the model returns `none` for every flat input. -/
theorem c5_flat_input_fails {S A : Type} [DecidableEq S] [Zero S] [Zero A] [Add A]
    (rot : A → S → S) (s : List (PulseBlock S A)) :
    compile_sequences rot (SeqInput.flat s) = none := rfl

/-- C4 counterexample: a program whose second sequence uses a channel `b`
absent from the prototype compiles without any error and produces output (the
extra channel is silently dropped from the link lists), contradicting the
claim that every channel-set mismatch raises `ChannelSetMismatch` and
produces no output. -/
theorem c4_counterexample :
    (compile_sequences rotQ (SeqInput.nested
        [[⟨[("a", ⟨[1], 0, 0⟩)], 1, "left"⟩],
         [⟨[("a", ⟨[1], 0, 0⟩), ("b", ⟨[2], 0, 0⟩)], 1, "left"⟩]])).map
        (fun rw => rw.1.map Prod.fst) = some ["a"] := by
  decide

/-- C8 counterexample: for a 1-sample pulse centered in a 2-sample block
(pad 1, below the merge cutoff), the source pads with
`np.zeros(np.floor(padLength/2))` on each side where `padLength/2` is Python 2
integer division, so both pads are empty and the merged entry's key is the
hash of the *unpadded* shape `[1]`, not of the claimed
floor-before/ceil-after padded shape `[1, 0]`. -/
theorem c8_counterexample :
    (align (⟨[1], 0, 0⟩ : Pulse ℤ ℚ) 2 "center" 12).2.map LLElement.key = [some [1]] ∧
    (align (⟨[1], 0, 0⟩ : Pulse ℤ ℚ) 2 "center" 12).2.map LLElement.key ≠
      [some (List.replicate 0 (0 : ℤ) ++ [1] ++ List.replicate 1 (0 : ℤ))] := by
  decide

/-! ### Phase/Frame pass lemmas -/

instance {S : Type} [DecidableEq S] (cl : ChanLib S) : Decidable (selfKeyed cl) :=
  inferInstanceAs (Decidable (∀ p ∈ cl, p.2 = p.1))

theorem processEntry_eq_of_lookup {S A : Type} [DecidableEq S] [Add A]
    (rot : A → S → S) (cl : ChanLib S) (f : A) {e : LLElement S A}
    {κ : List S} {s0 : S} {srest : List S}
    (he : e.key = some κ) (hl : lookupA cl κ = some (s0 :: srest)) :
    processEntry rot cl f e = some
      (insertIfAbsent cl ((taCollapse (s0 :: srest)).map (rot (e.phase + f)))
        ((taCollapse (s0 :: srest)).map (rot (e.phase + f))),
       { e with isTimeAmp := if ∀ x ∈ s0 :: srest, x = s0 then true else e.isTimeAmp,
                key := some ((taCollapse (s0 :: srest)).map (rot (e.phase + f))) }) := by
  unfold processEntry
  rw [he]
  simp only [hl, hash_pulse]

theorem processEntry_some_inv {S A : Type} [DecidableEq S] [Add A]
    {rot : A → S → S} {cl : ChanLib S} {f : A} {e : LLElement S A}
    {out : ChanLib S × LLElement S A}
    (h : processEntry rot cl f e = some out) :
    ∃ (κ : List S) (s0 : S) (srest : List S),
      e.key = some κ ∧ lookupA cl κ = some (s0 :: srest) ∧
      out = (insertIfAbsent cl ((taCollapse (s0 :: srest)).map (rot (e.phase + f)))
               ((taCollapse (s0 :: srest)).map (rot (e.phase + f))),
             { e with isTimeAmp := if ∀ x ∈ s0 :: srest, x = s0 then true else e.isTimeAmp,
                      key := some ((taCollapse (s0 :: srest)).map (rot (e.phase + f))) }) := by
  unfold processEntry at h
  split at h
  · exact absurd h (by simp)
  · rename_i κ he
    split at h
    · exact absurd h (by simp)
    · rename_i shape hl
      split at h
      · exact absurd h (by simp)
      · rename_i s0 srest
        refine ⟨κ, s0, srest, he, hl, ?_⟩
        simp only [hash_pulse] at h
        exact (Option.some_injective _ h).symm

/-- The entry produced by `processEntry` depends on the library only through
the shape fetched at the entry's key; the library output is the insert. -/
theorem passEntries_cons {S A : Type} [DecidableEq S] [Add A]
    (rot : A → S → S) (cl : ChanLib S) (f : A) (e : LLElement S A)
    (rest : List (LLElement S A)) :
    passEntries rot cl f (e :: rest) =
      match processEntry rot cl f e with
      | none => none
      | some (cl2, e2) =>
        match passEntries rot cl2 (f + e.frameChange) rest with
        | none => none
        | some (clF, restF) => some (clF, e2 :: restF) := rfl

theorem passEntries_mono {S A : Type} [DecidableEq S] [Add A] (rot : A → S → S) :
    ∀ (ll : List (LLElement S A)) (cl : ChanLib S) (f : A) (cl' : ChanLib S)
      (ll' : List (LLElement S A)),
      passEntries rot cl f ll = some (cl', ll') →
      ∀ (k v : List S), lookupA cl k = some v → lookupA cl' k = some v := by
  intro ll
  induction ll with
  | nil =>
    intro cl f cl' ll' h k v hkv
    simp only [passEntries, Option.some.injEq, Prod.mk.injEq] at h
    obtain ⟨rfl, -⟩ := h
    exact hkv
  | cons e rest ih =>
    intro cl f cl' ll' h k v hkv
    rw [passEntries_cons] at h
    split at h
    · exact absurd h (by simp)
    · rename_i cl2 e2 hp
      split at h
      · exact absurd h (by simp)
      · rename_i clF restF hr
        simp only [Option.some.injEq, Prod.mk.injEq] at h
        obtain ⟨rfl, -⟩ := h
        obtain ⟨κ, s0, srest, he, hl, hout⟩ := processEntry_some_inv hp
        have hcl2 : cl2 = insertIfAbsent cl
            ((taCollapse (s0 :: srest)).map (rot (e.phase + f)))
            ((taCollapse (s0 :: srest)).map (rot (e.phase + f))) := by
          simpa using congrArg Prod.fst hout
        have hkv2 : lookupA cl2 k = some v := by
          rw [hcl2]
          exact lookupA_insertIfAbsent_of_some _ _ hkv
        exact ih cl2 (f + e.frameChange) clF restF hr k v hkv2

theorem passEntries_selfKeyed {S A : Type} [DecidableEq S] [Add A] (rot : A → S → S) :
    ∀ (ll : List (LLElement S A)) (cl : ChanLib S) (f : A) (cl' : ChanLib S)
      (ll' : List (LLElement S A)),
      selfKeyed cl →
      passEntries rot cl f ll = some (cl', ll') → selfKeyed cl' := by
  intro ll
  induction ll with
  | nil =>
    intro cl f cl' ll' hsk h
    simp only [passEntries, Option.some.injEq, Prod.mk.injEq] at h
    obtain ⟨rfl, -⟩ := h
    exact hsk
  | cons e rest ih =>
    intro cl f cl' ll' hsk h
    rw [passEntries_cons] at h
    split at h
    · exact absurd h (by simp)
    · rename_i cl2 e2 hp
      split at h
      · exact absurd h (by simp)
      · rename_i clF restF hr
        simp only [Option.some.injEq, Prod.mk.injEq] at h
        obtain ⟨rfl, -⟩ := h
        obtain ⟨κ, s0, srest, he, hl, hout⟩ := processEntry_some_inv hp
        have hcl2 : cl2 = insertIfAbsent cl
            ((taCollapse (s0 :: srest)).map (rot (e.phase + f)))
            ((taCollapse (s0 :: srest)).map (rot (e.phase + f))) := by
          simpa using congrArg Prod.fst hout
        have hsk2 : selfKeyed cl2 := hcl2 ▸ hsk.insertIfAbsent_same _
        exact ih cl2 (f + e.frameChange) clF restF hsk2 hr

theorem frameBefore_zero {S A : Type} [AddCommMonoid A] (ll : List (LLElement S A)) :
    frameBefore ll 0 = 0 := by
  simp [frameBefore]

theorem frameBefore_cons_succ {S A : Type} [AddCommMonoid A] (e : LLElement S A)
    (ll : List (LLElement S A)) (k : ℕ) :
    frameBefore (e :: ll) (k + 1) = e.frameChange + frameBefore ll k := by
  simp [frameBefore, List.take_succ_cons]

theorem passEntries_get_key {S A : Type} [DecidableEq S] [AddCommMonoid A] (rot : A → S → S) :
    ∀ (ll : List (LLElement S A)) (cl : ChanLib S) (f : A) (cl' : ChanLib S)
      (ll' : List (LLElement S A)),
      selfKeyed cl →
      passEntries rot cl f ll = some (cl', ll') →
      ∀ (k : ℕ) (e e' : LLElement S A) (κ : List S),
        ll[k]? = some e → ll'[k]? = some e' → e.key = some κ →
        e'.key = some ((taCollapse κ).map (rot (e.phase + (f + frameBefore ll k)))) := by
  intro ll
  induction ll with
  | nil =>
    intro cl f cl' ll' hsk h k e e' κ he
    simp at he
  | cons e0 rest ih =>
    intro cl f cl' ll' hsk h k e e' κ he he' hκ
    rw [passEntries_cons] at h
    split at h
    · exact absurd h (by simp)
    · rename_i cl2 e2 hp
      split at h
      · exact absurd h (by simp)
      · rename_i clF restF hr
        simp only [Option.some.injEq, Prod.mk.injEq] at h
        obtain ⟨rfl, rfl⟩ := h
        obtain ⟨κ0, s0, srest, he0, hl, hout⟩ := processEntry_some_inv hp
        have hcl2 : cl2 = insertIfAbsent cl
            ((taCollapse (s0 :: srest)).map (rot (e0.phase + f)))
            ((taCollapse (s0 :: srest)).map (rot (e0.phase + f))) := by
          simpa using congrArg Prod.fst hout
        have he2 : e2 = { e0 with
            isTimeAmp := if ∀ x ∈ s0 :: srest, x = s0 then true else e0.isTimeAmp,
            key := some ((taCollapse (s0 :: srest)).map (rot (e0.phase + f))) } := by
          simpa using congrArg Prod.snd hout
        cases k with
        | zero =>
          simp only [List.getElem?_cons_zero, Option.some.injEq] at he he'
          subst he he'
          rw [hκ] at he0
          obtain rfl : κ = κ0 := by simpa using he0
          have hshape : (s0 :: srest) = κ := hsk.lookup hl
          rw [frameBefore_zero, add_zero, he2, ← hshape]
        | succ k =>
          simp only [List.getElem?_cons_succ] at he he'
          have hsk2 : selfKeyed cl2 := hcl2 ▸ hsk.insertIfAbsent_same _
          have := ih cl2 (f + e0.frameChange) clF restF hsk2 hr k e e' κ he he' hκ
          rw [frameBefore_cons_succ, this, add_assoc]

/-- C3 (confirmed): in the Phase/Frame pass over a channel's mini-LL, the
k-th entry's waveform is the fetched shape (its key, under the injective-hash
model and a self-keyed library), TA-collapsed and then rotated by
`entry.phase + F_k`, where `F_1 = 0` and `F_{k+1} = F_k + frameChange_k`
(`frameBefore ll k` is exactly that prefix sum); `rot θ` models multiplication
by `exp(i·θ)`.  In particular for frame changes `[a, b, c]` the first entry is
rotated with cumulative frame `0` and the third with `a + b`. -/
theorem c3_frame_accumulation {S A : Type} [DecidableEq S] [AddCommMonoid A]
    (rot : A → S → S) (cl cl' : ChanLib S) (ll ll' : List (LLElement S A))
    (hsk : selfKeyed cl) (h : passEntries rot cl 0 ll = some (cl', ll'))
    (k : ℕ) (e e' : LLElement S A) (κ : List S)
    (he : ll[k]? = some e) (he' : ll'[k]? = some e') (hκ : e.key = some κ) :
    e'.key = some ((taCollapse κ).map (rot (e.phase + frameBefore ll k))) := by
  have := passEntries_get_key rot ll cl 0 cl' ll' hsk h k e e' κ he he' hκ
  rwa [zero_add] at this

def clW3 : ChanLib ℤ := [([2], [2]), ([3], [3]), ([4], [4])]

def llW3 : List (LLElement ℤ ℚ) :=
  [⟨1, false, false, 0, 0, some [2], 1, 0, 1⟩,
   ⟨1, false, false, 0, 0, some [3], 1, 0, 2⟩,
   ⟨1, false, false, 0, 0, some [4], 1, 0, 4⟩]

def llW3' : List (LLElement ℤ ℚ) :=
  [⟨1, true, false, 0, 0, some [2], 1, 0, 1⟩,
   ⟨1, true, false, 0, 0, some [3], 1, 0, 2⟩,
   ⟨1, true, false, 0, 0, some [4], 1, 0, 4⟩]

/-- Witness for C3: a concrete three-entry mini-LL with frame changes
`[1, 2, 4]`; the third entry is rotated with cumulative frame `1 + 2 = 3`. -/
theorem c3_witness :
    (⟨1, true, false, 0, 0, some [4], 1, 0, 4⟩ : LLElement ℤ ℚ).key =
      some ((taCollapse [4]).map (rotQ ((0 : ℚ) + frameBefore llW3 2))) :=
  c3_frame_accumulation rotQ clW3 clW3 llW3 llW3' (by decide) (by decide) 2
    ⟨1, false, false, 0, 0, some [4], 1, 0, 4⟩
    ⟨1, true, false, 0, 0, some [4], 1, 0, 4⟩ [4]
    (by decide) (by decide) (by decide)

/-- C10 (confirmed): in the link-list building pass, a channel absent from a
block's pulse map receives exactly one padding entry `create_padding_LL
block.maxPts` (zero-duration blocks never reach this code: `buildLLs` skips
them before the channel loop); that entry is the `LLElement()` defaults with
`isTimeAmp = true`, `key = TAZKey`, the block length, and phase and frame
change both zero — and since its `frameChange` is `0`, the Phase/Frame pass
threads the same cumulative frame `f` past it to the remaining entries. -/
theorem c10_padding_entry {S A : Type} [DecidableEq S] [Zero S] [AddMonoid A]
    (block : PulseBlock S A) (chan : Chan)
    (st : WFLib S × List (Chan × List (LLElement S A)))
    (rot : A → S → S) (cl : ChanLib S) (f : A) (L : ℕ) (rest : List (LLElement S A)) :
    (lookupA block.pulses chan = none →
      addBlockChan block chan st =
        some (st.1, appendA st.2 chan [create_padding_LL S A block.maxPts])) ∧
    create_padding_LL S A L = ⟨1, true, false, 0, 0, some (TAZKey S), L, 0, 0⟩ ∧
    passEntries rot cl f (create_padding_LL S A L :: rest) =
      (match processEntry rot cl f (create_padding_LL S A L) with
       | none => none
       | some (cl2, e2) =>
         match passEntries rot cl2 f rest with
         | none => none
         | some (clF, restF) => some (clF, e2 :: restF)) := by
  refine ⟨fun h => ?_, rfl, ?_⟩
  · unfold addBlockChan
    rw [h]
  · rw [passEntries_cons]
    have hz : (create_padding_LL S A L).frameChange = 0 := rfl
    rw [hz, add_zero]

/-- Witness for C10: a channel missing from a concrete block gets exactly the
single padding element. -/
theorem c10_witness :
    addBlockChan (⟨[], 3, "left"⟩ : PulseBlock ℤ ℚ) "a" ([], [("a", [])]) =
      some ([], appendA [("a", [])] "a" [create_padding_LL ℤ ℚ 3]) :=
  (c10_padding_entry (⟨[], 3, "left"⟩ : PulseBlock ℤ ℚ) "a" ([], [("a", [])])
    rotQ [] 0 3 []).1 (by decide)

/-- C8 (corrected): `align` with the default cutoff 12.  For `pad = 0` it
returns the shape unchanged and one entry of length `blockLength`; for small
pads and `left`/`right` it returns one merged entry whose key is the hash of
the shape padded with trailing (resp. leading) zeros, as the claim states.  For `center`,
however, Python 2 integer division makes both pad halves
`floor(pad_length/2)` — the claimed `ceil(pad_length/2)` trailing pad is
`floor` in the code, so for odd pads the merged shape is one sample short of
the block length. -/
theorem c8_amended {S A : Type} [Zero S] [Zero A] (p : Pulse S A) (L : ℕ) :
    (p.shape.length = L → ∀ a : String,
      align p L a 12 =
        (p.shape,
         [⟨1, false, false, 0, 0, some (hash_pulse p.shape), L, p.phase, p.frameChange⟩])) ∧
    (0 < L - p.shape.length → L - p.shape.length < 12 →
      align p L "left" 12 =
        (p.shape ++ List.replicate (L - p.shape.length) 0,
         [⟨1, false, false, 0, 0,
           some (hash_pulse (p.shape ++ List.replicate (L - p.shape.length) 0)), L,
           p.phase, p.frameChange⟩]) ∧
      align p L "right" 12 =
        (List.replicate (L - p.shape.length) 0 ++ p.shape,
         [⟨1, false, false, 0, 0,
           some (hash_pulse (List.replicate (L - p.shape.length) 0 ++ p.shape)), L,
           p.phase, p.frameChange⟩])) ∧
    (0 < L - p.shape.length → L - p.shape.length < 2 * 12 →
      align p L "center" 12 =
        (List.replicate ((L - p.shape.length) / 2) 0 ++ p.shape ++
           List.replicate ((L - p.shape.length) / 2) 0,
         [⟨1, false, false, 0, 0,
           some (hash_pulse (List.replicate ((L - p.shape.length) / 2) 0 ++ p.shape ++
             List.replicate ((L - p.shape.length) / 2) 0)), L, p.phase, p.frameChange⟩])) := by
  refine ⟨fun h a => ?_, fun h1 h2 => ⟨?_, ?_⟩, fun h1 h2 => ?_⟩
  · have h0 : L - p.shape.length = 0 := by omega
    simp [align, h0]
  · have hne : ¬(L - p.shape.length = 0) := by omega
    simp [align, hne, h2]
  · have hne : ¬(L - p.shape.length = 0) := by omega
    simp [align, hne, h2]
  · have hne : ¬(L - p.shape.length = 0) := by omega
    simp [align, hne, h2]

/-- Witness for C8: a 1-sample pulse left-aligned in a 3-sample block merges
into one entry keyed by the trailing-padded shape. -/
theorem c8_amended_witness :
    align (⟨[1], 0, 0⟩ : Pulse ℤ ℚ) 3 "left" 12 =
      ([1, 0, 0], [⟨1, false, false, 0, 0, some [1, 0, 0], 3, 0, 0⟩]) := by
  have h := ((c8_amended (⟨[1], 0, 0⟩ : Pulse ℤ ℚ) 3).2.1 (by decide) (by decide)).1
  simpa [hash_pulse, List.replicate] using h

theorem passEntries_pair_same {S A : Type} [DecidableEq S] [AddCommMonoid A]
    (rot : A → S → S) (CL : ChanLib S) (E : LLElement S A) (s0 : S) (srest : List S)
    (hkey : E.key = some (s0 :: srest)) (hl : lookupA CL (s0 :: srest) = some (s0 :: srest))
    (hfc : E.frameChange = 0) :
    passEntries rot CL 0 [E, E] =
      some (insertIfAbsent CL ((taCollapse (s0 :: srest)).map (rot (E.phase + 0)))
              ((taCollapse (s0 :: srest)).map (rot (E.phase + 0))),
            [{ E with isTimeAmp := if ∀ x ∈ s0 :: srest, x = s0 then true else E.isTimeAmp,
                      key := some ((taCollapse (s0 :: srest)).map (rot (E.phase + 0))) },
             { E with isTimeAmp := if ∀ x ∈ s0 :: srest, x = s0 then true else E.isTimeAmp,
                      key := some ((taCollapse (s0 :: srest)).map (rot (E.phase + 0))) }]) := by
  have hp1 := processEntry_eq_of_lookup rot CL (0 : A) hkey hl
  have hl2 : lookupA (insertIfAbsent CL ((taCollapse (s0 :: srest)).map (rot (E.phase + 0)))
      ((taCollapse (s0 :: srest)).map (rot (E.phase + 0)))) (s0 :: srest) =
      some (s0 :: srest) := lookupA_insertIfAbsent_of_some _ _ hl
  have hp2 := processEntry_eq_of_lookup rot
    (insertIfAbsent CL ((taCollapse (s0 :: srest)).map (rot (E.phase + 0)))
      ((taCollapse (s0 :: srest)).map (rot (E.phase + 0)))) (0 : A) hkey hl2
  have hiia : insertIfAbsent (insertIfAbsent CL ((taCollapse (s0 :: srest)).map (rot (E.phase + 0)))
        ((taCollapse (s0 :: srest)).map (rot (E.phase + 0))))
      ((taCollapse (s0 :: srest)).map (rot (E.phase + 0)))
      ((taCollapse (s0 :: srest)).map (rot (E.phase + 0))) =
      insertIfAbsent CL ((taCollapse (s0 :: srest)).map (rot (E.phase + 0)))
        ((taCollapse (s0 :: srest)).map (rot (E.phase + 0))) :=
    insertIfAbsent_of_isSome _ (lookupA_insertIfAbsent_self_isSome _ _ _)
  simp only [passEntries_cons, hp1, hfc, add_zero, zero_add] at *
  simp [passEntries, hp2, hiia, hfc]

/-- C7 (confirmed): compiling a sequence of two blocks carrying the same
pulse (same samples, phase and zero frame change, so both entries see the
same phase/frame context) on one channel yields two LLElements with one and
the same `waveform_key`, and the channel's waveform library has no duplicate
keys — under the injective content hash, equal keys means both reference one
single library entry, never two entries with the same content. -/
theorem c7_dedup {S A : Type} [DecidableEq S] [Zero S] [AddCommMonoid A]
    (rot : A → S → S) (c : Chan) (p : Pulse S A) (al : String)
    (hne : p.shape ≠ []) (hfc : p.frameChange = 0) :
    ∃ (k : List S) (lls : List (Chan × List (LLElement S A))) (w : WFLib S),
      compile_sequence rot
          [⟨[(c, p)], p.shape.length, al⟩, ⟨[(c, p)], p.shape.length, al⟩] [] =
        some (lls, w) ∧
      (lookupA lls c).map (List.map LLElement.key) = some [some k, some k] ∧
      ∀ cl, lookupA w c = some cl → (cl.map Prod.fst).Nodup := by
  obtain ⟨s0, srest, hsh⟩ : ∃ s0 srest, p.shape = s0 :: srest := by
    cases h : p.shape with
    | nil => exact absurd h hne
    | cons a b => exact ⟨a, b, rfl⟩
  have hch : find_unique_channels
      [(⟨[(c, p)], p.shape.length, al⟩ : PulseBlock S A), ⟨[(c, p)], p.shape.length, al⟩] =
      [c] := by
    simp [find_unique_channels]
  have hinit : initChannels [c] ([] : WFLib S) = [(c, [(TAZKey S, [(0 : S)])])] := by
    simp [initChannels, insertA]
  have hL : ¬(p.shape.length = 0) := by
    simp [hsh]
  have halign : align p p.shape.length al 12 =
      (p.shape, [⟨1, false, false, 0, 0, some (hash_pulse p.shape), p.shape.length,
        p.phase, p.frameChange⟩]) := by
    simp [align]
  have habc : addBlockChan (⟨[(c, p)], p.shape.length, al⟩ : PulseBlock S A) c
      ([(c, [(TAZKey S, [(0 : S)])])], [(c, [])]) =
      some ([(c, insertA [(TAZKey S, [(0 : S)])] p.shape p.shape)],
            [(c, [⟨1, false, false, 0, 0, some (hash_pulse p.shape), p.shape.length,
              p.phase, p.frameChange⟩])]) := by
    simp [addBlockChan, halign, lookupA, insertA, appendA, hash_pulse]
  have hinsSelf : insertA (insertA [(TAZKey S, [(0 : S)])] p.shape p.shape) p.shape p.shape =
      insertA [(TAZKey S, [(0 : S)])] p.shape p.shape :=
    insertA_eq_self (lookupA_insertA_self _ _ _)
  have habc2 : addBlockChan (⟨[(c, p)], p.shape.length, al⟩ : PulseBlock S A) c
      ([(c, insertA [(TAZKey S, [(0 : S)])] p.shape p.shape)],
       [(c, [⟨1, false, false, 0, 0, some (hash_pulse p.shape), p.shape.length,
         p.phase, p.frameChange⟩])]) =
      some ([(c, insertA [(TAZKey S, [(0 : S)])] p.shape p.shape)],
            [(c, [⟨1, false, false, 0, 0, some (hash_pulse p.shape), p.shape.length,
               p.phase, p.frameChange⟩,
              ⟨1, false, false, 0, 0, some (hash_pulse p.shape), p.shape.length,
               p.phase, p.frameChange⟩])]) := by
    have houter : ∀ x : ChanLib S,
        insertA [(c, insertA [(TAZKey S, [(0 : S)])] p.shape p.shape)] c x = [(c, x)] := by
      intro x
      simp [insertA]
    simp [addBlockChan, halign, lookupA, appendA, hash_pulse, houter, hinsSelf]
  have hbuild : buildLLs [c]
      [(⟨[(c, p)], p.shape.length, al⟩ : PulseBlock S A), ⟨[(c, p)], p.shape.length, al⟩]
      (([(c, [(TAZKey S, [(0 : S)])])]), [(c, [])]) =
      some (([(c, insertA [(TAZKey S, [(0 : S)])] p.shape p.shape)]),
            [(c, [⟨1, false, false, 0, 0, some (hash_pulse p.shape), p.shape.length,
               p.phase, p.frameChange⟩,
              ⟨1, false, false, 0, 0, some (hash_pulse p.shape), p.shape.length,
               p.phase, p.frameChange⟩])]) := by
    simp [buildLLs, hL, addBlockChans, habc, habc2]
  have hsk0 : selfKeyed [(TAZKey S, [(0 : S)])] := by
    intro q hq
    simp at hq
    rw [hq]
    rfl
  have hkeyE : (⟨1, false, false, 0, 0, some (hash_pulse p.shape), p.shape.length,
      p.phase, p.frameChange⟩ : LLElement S A).key = some (s0 :: srest) := by
    simp [hash_pulse, hsh]
  have hlkp : lookupA (insertA [(TAZKey S, [(0 : S)])] p.shape p.shape) (s0 :: srest) =
      some (s0 :: srest) := by
    rw [← hsh]
    exact lookupA_insertA_self _ _ _
  have hpair := passEntries_pair_same rot (insertA [(TAZKey S, [(0 : S)])] p.shape p.shape)
    (⟨1, false, false, 0, 0, some (hash_pulse p.shape), p.shape.length,
      p.phase, p.frameChange⟩ : LLElement S A) s0 srest hkeyE hlkp hfc
  have hpc : passChannels rot
      [(c, [(⟨1, false, false, 0, 0, some (hash_pulse p.shape), p.shape.length,
         p.phase, p.frameChange⟩ : LLElement S A),
        ⟨1, false, false, 0, 0, some (hash_pulse p.shape), p.shape.length,
         p.phase, p.frameChange⟩])]
      [(c, insertA [(TAZKey S, [(0 : S)])] p.shape p.shape)] =
      some ([(c, [{ (⟨1, false, false, 0, 0, some (hash_pulse p.shape), p.shape.length,
          p.phase, p.frameChange⟩ : LLElement S A) with
            isTimeAmp := if ∀ x ∈ s0 :: srest, x = s0 then true else false,
            key := some ((taCollapse (s0 :: srest)).map (rot (p.phase + 0))) },
         { (⟨1, false, false, 0, 0, some (hash_pulse p.shape), p.shape.length,
          p.phase, p.frameChange⟩ : LLElement S A) with
            isTimeAmp := if ∀ x ∈ s0 :: srest, x = s0 then true else false,
            key := some ((taCollapse (s0 :: srest)).map (rot (p.phase + 0))) }])],
       [(c, insertIfAbsent (insertA [(TAZKey S, [(0 : S)])] p.shape p.shape)
          ((taCollapse (s0 :: srest)).map (rot (p.phase + 0)))
          ((taCollapse (s0 :: srest)).map (rot (p.phase + 0))))]) := by
    have houter : ∀ x : ChanLib S,
        insertA [(c, insertA [(TAZKey S, [(0 : S)])] p.shape p.shape)] c x = [(c, x)] := by
      intro x
      simp [insertA]
    simp [passChannels, lookupA, hpair, houter]
  refine ⟨(taCollapse (s0 :: srest)).map (rot (p.phase + 0)),
    [(c, [{ (⟨1, false, false, 0, 0, some (hash_pulse p.shape), p.shape.length,
        p.phase, p.frameChange⟩ : LLElement S A) with
          isTimeAmp := if ∀ x ∈ s0 :: srest, x = s0 then true else false,
          key := some ((taCollapse (s0 :: srest)).map (rot (p.phase + 0))) },
       { (⟨1, false, false, 0, 0, some (hash_pulse p.shape), p.shape.length,
        p.phase, p.frameChange⟩ : LLElement S A) with
          isTimeAmp := if ∀ x ∈ s0 :: srest, x = s0 then true else false,
          key := some ((taCollapse (s0 :: srest)).map (rot (p.phase + 0))) }])],
    [(c, insertIfAbsent (insertA [(TAZKey S, [(0 : S)])] p.shape p.shape)
        ((taCollapse (s0 :: srest)).map (rot (p.phase + 0)))
        ((taCollapse (s0 :: srest)).map (rot (p.phase + 0))))], ?_, ?_, ?_⟩
  · simp [compile_sequence, hch, hinit, hbuild, hpc]
  · simp [lookupA]
  · intro cl hcl
    simp [lookupA] at hcl
    rw [← hcl]
    refine keysNodup_insertIfAbsent _ _ (keysNodup_insertA _ _ ?_)
    simp

/-- Witness for C7: two identical 1-sample pulses on channel `a`. -/
theorem c7_witness :
    ∃ (k : List ℤ) (lls : List (Chan × List (LLElement ℤ ℚ))) (w : WFLib ℤ),
      compile_sequence rotQ
          [⟨[("a", ⟨[7], 0, 0⟩)], (⟨[7], 0, 0⟩ : Pulse ℤ ℚ).shape.length, "left"⟩,
           ⟨[("a", ⟨[7], 0, 0⟩)], (⟨[7], 0, 0⟩ : Pulse ℤ ℚ).shape.length, "left"⟩] [] =
        some (lls, w) ∧
      (lookupA lls "a").map (List.map LLElement.key) = some [some k, some k] ∧
      ∀ cl, lookupA w "a" = some cl → (cl.map Prod.fst).Nodup :=
  c7_dedup rotQ "a" ⟨[7], 0, 0⟩ "left" (by decide) (by decide)

theorem appendA_keys {β : Type} (l : List (Chan × List β)) (c : Chan) (es : List β) :
    (appendA l c es).map Prod.fst = l.map Prod.fst := by
  induction l with
  | nil => simp [appendA]
  | cons p rest ih =>
    obtain ⟨k, v⟩ := p
    by_cases h : c = k
    · simp [appendA, h]
    · simp [appendA, h, ih]

theorem addBlockChan_keys {S A : Type} [DecidableEq S] [Zero S] [Zero A]
    {block : PulseBlock S A} {chan : Chan}
    {st st2 : WFLib S × List (Chan × List (LLElement S A))}
    (h : addBlockChan block chan st = some st2) :
    st2.2.map Prod.fst = st.2.map Prod.fst := by
  unfold addBlockChan at h
  split at h
  · split at h
    · exact absurd h (by simp)
    · simp only [Option.some.injEq] at h
      rw [← h]
      exact appendA_keys _ _ _
  · simp only [Option.some.injEq] at h
    rw [← h]
    exact appendA_keys _ _ _

theorem addBlockChans_keys {S A : Type} [DecidableEq S] [Zero S] [Zero A]
    (block : PulseBlock S A) :
    ∀ (cs : List Chan) (st st2 : WFLib S × List (Chan × List (LLElement S A))),
      addBlockChans block cs st = some st2 →
      st2.2.map Prod.fst = st.2.map Prod.fst := by
  intro cs
  induction cs with
  | nil =>
    intro st st2 h
    simp only [addBlockChans, Option.some.injEq] at h
    rw [← h]
  | cons c cs ih =>
    intro st st2 h
    simp only [addBlockChans] at h
    split at h
    · exact absurd h (by simp)
    · rename_i st1 h1
      rw [ih st1 st2 h, addBlockChan_keys h1]

theorem buildLLs_keys {S A : Type} [DecidableEq S] [Zero S] [Zero A] (channels : List Chan) :
    ∀ (seq : List (PulseBlock S A)) (st st2 : WFLib S × List (Chan × List (LLElement S A))),
      buildLLs channels seq st = some st2 →
      st2.2.map Prod.fst = st.2.map Prod.fst := by
  intro seq
  induction seq with
  | nil =>
    intro st st2 h
    simp only [buildLLs, Option.some.injEq] at h
    rw [← h]
  | cons block rest ih =>
    intro st st2 h
    simp only [buildLLs] at h
    split at h
    · exact ih st st2 h
    · split at h
      · exact absurd h (by simp)
      · rename_i st1 h1
        rw [ih st1 st2 h, addBlockChans_keys block channels st st1 h1]

theorem passChannels_keys {S A : Type} [DecidableEq S] [Zero A] [Add A] (rot : A → S → S) :
    ∀ (lls : List (Chan × List (LLElement S A))) (lib : WFLib S)
      (out : List (Chan × List (LLElement S A))) (libF : WFLib S),
      passChannels rot lls lib = some (out, libF) →
      out.map Prod.fst = lls.map Prod.fst := by
  intro lls
  induction lls with
  | nil =>
    intro lib out libF h
    simp only [passChannels, Option.some.injEq, Prod.mk.injEq] at h
    rw [← h.1]
  | cons p rest ih =>
    intro lib out libF h
    obtain ⟨chan, ll⟩ := p
    simp only [passChannels] at h
    split at h
    · exact absurd h (by simp)
    · rename_i cl hcl
      split at h
      · exact absurd h (by simp)
      · rename_i cl2 ll2 hpe
        split at h
        · exact absurd h (by simp)
        · rename_i restOut libF2 hrest
          simp only [Option.some.injEq, Prod.mk.injEq] at h
          rw [← h.1]
          simp [ih _ _ _ hrest]

theorem compile_sequence_keys {S A : Type} [DecidableEq S] [Zero S] [Zero A] [Add A]
    (rot : A → S → S) (seq : List (PulseBlock S A)) (wfLib : WFLib S)
    (r : List (Chan × List (LLElement S A))) (w : WFLib S)
    (h : compile_sequence rot seq wfLib = some (r, w)) :
    r.map Prod.fst = find_unique_channels seq := by
  simp only [compile_sequence] at h
  split at h
  · exact absurd h (by simp)
  · rename_i lib1 lls1 hb
    split at h
    · exact absurd h (by simp)
    · rename_i lls2 lib2 hpc
      simp only [Option.some.injEq, Prod.mk.injEq] at h
      obtain ⟨rfl, rfl⟩ := h
      rw [passChannels_keys rot lls1 lib1 _ _ hpc,
        buildLLs_keys (find_unique_channels seq) seq _ _ hb]
      simp [Function.comp_def]

theorem appendEach_none {S A : Type} :
    ∀ (lls : LinkLists S A) (m : List (Chan × List (LLElement S A))) (c : Chan),
      c ∈ lls.map Prod.fst → lookupA m c = none → appendEach lls m = none := by
  intro lls
  induction lls with
  | nil =>
    intro m c hc
    simp at hc
  | cons p rest ih =>
    intro m c hc hm
    obtain ⟨k, v⟩ := p
    simp only [List.map_cons, List.mem_cons] at hc
    simp only [appendEach]
    rcases hc with hc | hc
    · rw [hc] at hm
      rw [hm]
    · cases hk : lookupA m k with
      | none => rfl
      | some ll =>
        rw [ih m c hc hm]

theorem appendEach_keys {S A : Type} :
    ∀ (lls lls2 : LinkLists S A) (m : List (Chan × List (LLElement S A))),
      appendEach lls m = some lls2 → lls2.map Prod.fst = lls.map Prod.fst := by
  intro lls
  induction lls with
  | nil =>
    intro lls2 m h
    simp only [appendEach, Option.some.injEq] at h
    rw [← h]
  | cons p rest ih =>
    intro lls2 m h
    obtain ⟨k, v⟩ := p
    simp only [appendEach] at h
    split at h
    · exact absurd h (by simp)
    · rename_i ll hk
      split at h
      · exact absurd h (by simp)
      · rename_i restOut hrest
        simp only [Option.some.injEq] at h
        rw [← h]
        simp [ih restOut m hrest]

theorem compileSeqsGo_none {S A : Type} [DecidableEq S] [Zero S] [Zero A] [Add A]
    (rot : A → S → S) (c : Chan) :
    ∀ (rest : List (List (PulseBlock S A))) (i : ℕ) (s : List (PulseBlock S A))
      (lls : LinkLists S A) (lib : WFLib S),
      rest[i]? = some s → c ∈ lls.map Prod.fst → c ∉ find_unique_channels s →
      compileSeqsGo rot rest lls lib = none := by
  intro rest
  induction rest with
  | nil =>
    intro i s lls lib hs
    simp at hs
  | cons s1 rest ih =>
    intro i s lls lib hs hc hcm
    cases hcs : compile_sequence rot s1 lib with
    | none => simp [compileSeqsGo, hcs]
    | some mw =>
      obtain ⟨m, lib2⟩ := mw
      cases i with
      | zero =>
        simp only [List.getElem?_cons_zero, Option.some.injEq] at hs
        have hkeys : m.map Prod.fst = find_unique_channels s1 :=
          compile_sequence_keys rot s1 lib m lib2 hcs
        have hnone : lookupA m c = none := by
          rw [lookupA_eq_none_iff, hkeys, hs]
          exact hcm
        simp [compileSeqsGo, hcs, appendEach_none lls m c hc hnone]
      | succ i =>
        simp only [List.getElem?_cons_succ] at hs
        cases hae : appendEach lls m with
        | none => simp [compileSeqsGo, hcs, hae]
        | some lls2 =>
          have hc2 : c ∈ lls2.map Prod.fst := by
            rw [appendEach_keys lls lls2 m hae]
            exact hc
          simp [compileSeqsGo, hcs, hae, ih i s lls2 lib2 hs hc2 hcm]

/-- C4 (corrected/amended): the compiler performs no channel-set validation
and raises no `ChannelSetMismatch`.  When a non-prototype sequence is missing
a channel of the prototype's channel set, `compile_sequences` dies with an
unhandled `KeyError` at `miniLL[chan]` (modelled: `none`), identifying
nothing, and produces no output; a non-prototype sequence using *extra*
channels absent from the prototype is not detected at all — compilation
succeeds and the extra channels are silently dropped (see the
counterexample). -/
theorem c4_missing_channel_fails {S A : Type} [DecidableEq S] [Zero S] [Zero A] [Add A]
    (rot : A → S → S) (s0 : List (PulseBlock S A)) (rest : List (List (PulseBlock S A)))
    (i : ℕ) (s : List (PulseBlock S A)) (c : Chan)
    (hs : rest[i]? = some s)
    (hc : c ∈ find_unique_channels s0) (hcm : c ∉ find_unique_channels s) :
    compile_sequences rot (SeqInput.nested (s0 :: rest)) = none := by
  cases hcs : compile_sequence rot s0 [] with
  | none => simp [compile_sequences, hcs]
  | some mw =>
    obtain ⟨m0, lib0⟩ := mw
    have hkeys : (m0.map fun p => (p.1, ([p.2] : List (List (LLElement S A))))).map Prod.fst =
        find_unique_channels s0 := by
      rw [← compile_sequence_keys rot s0 [] m0 lib0 hcs]
      simp [Function.comp_def]
    have hgo := compileSeqsGo_none rot c rest i s
      (m0.map fun p => (p.1, ([p.2] : List (List (LLElement S A))))) lib0 hs
      (by rw [hkeys]; exact hc) hcm
    simp [compile_sequences, hcs, hgo]

/-- Witness for the amended C4: a two-sequence program whose second sequence
lacks the prototype channel `a` fails producing no output. -/
theorem c4_missing_channel_witness :
    compile_sequences rotQ (SeqInput.nested
        [[⟨[("a", ⟨[1], 0, 0⟩)], 1, "left"⟩],
         [⟨[("b", ⟨[2], 0, 0⟩)], 1, "left"⟩]]) = none :=
  c4_missing_channel_fails rotQ [⟨[("a", ⟨[1], 0, 0⟩)], 1, "left"⟩]
    [[⟨[("b", ⟨[2], 0, 0⟩)], 1, "left"⟩]] 0 [⟨[("b", ⟨[2], 0, 0⟩)], 1, "left"⟩] "a"
    (by decide) (by decide) (by decide)

theorem taCollapse_cons_eq {S : Type} [DecidableEq S] (s0 : S) (rest : List S) :
    taCollapse (s0 :: rest) = if ∀ x ∈ s0 :: rest, x = s0 then [s0] else s0 :: rest := rfl

theorem taCollapse_idem {S : Type} [DecidableEq S] (s : List S) :
    taCollapse (taCollapse s) = taCollapse s := by
  cases s with
  | nil => rfl
  | cons s0 rest =>
    rw [taCollapse_cons_eq]
    by_cases h : ∀ x ∈ s0 :: rest, x = s0
    · rw [if_pos h, taCollapse_cons_eq, if_pos (by simp)]
    · rw [if_neg h, taCollapse_cons_eq, if_neg h]

theorem taCollapse_cons {S : Type} [DecidableEq S] (s0 : S) (rest : List S) :
    ∃ xr, taCollapse (s0 :: rest) = s0 :: xr := by
  rw [taCollapse_cons_eq]
  by_cases h : ∀ x ∈ s0 :: rest, x = s0
  · exact ⟨[], by rw [if_pos h]⟩
  · exact ⟨rest, by rw [if_neg h]⟩

theorem selfKeyed.lookup_of_isSome {S : Type} [DecidableEq S] {cl : ChanLib S}
    (hsk : selfKeyed cl) {k : List S} (h : (lookupA cl k).isSome) :
    lookupA cl k = some k := by
  obtain ⟨v, hv⟩ := Option.isSome_iff_exists.mp h
  rw [hv, hsk.lookup hv]

/-- C6 (corrected/amended): the Phase/Frame pass is idempotent on a mini-LL
whose entries all carry zero phase *and* zero frame change (over a self-keyed
library, with `rot 0` the identity, as `exp(i·0)` is): a second run leaves
the library, every entry and in particular every `waveform_key` unchanged.
Zero frame change by itself is not enough, because the pass re-applies
`entry.phase` on every run (see the counterexample). -/
theorem c6_zero_phase_idempotent {S A : Type} [DecidableEq S] [AddCommMonoid A]
    (rot : A → S → S) (hrot : ∀ z : S, rot 0 z = z) :
    ∀ (ll : List (LLElement S A)) (cl cl1 : ChanLib S) (ll1 : List (LLElement S A)),
      selfKeyed cl →
      (∀ e ∈ ll, e.phase = 0 ∧ e.frameChange = 0) →
      passEntries rot cl 0 ll = some (cl1, ll1) →
      passEntries rot cl1 0 ll1 = some (cl1, ll1) := by
  have hmapid : ∀ Y : List S, Y.map (rot ((0 : A) + 0)) = Y := by
    intro Y
    rw [add_zero]
    exact (List.map_congr_left fun z _ => hrot z).trans (List.map_id Y)
  intro ll
  induction ll with
  | nil =>
    intro cl cl1 ll1 hsk hz h
    simp only [passEntries, Option.some.injEq, Prod.mk.injEq] at h
    obtain ⟨rfl, rfl⟩ := h
    rfl
  | cons e rest ih =>
    intro cl cl1 ll1 hsk hz h
    have hph : e.phase = 0 := (hz e (by simp)).1
    have hfc : e.frameChange = 0 := (hz e (by simp)).2
    rw [passEntries_cons] at h
    split at h
    · exact absurd h (by simp)
    · rename_i cl2 e1 hp
      split at h
      · exact absurd h (by simp)
      · rename_i clF restF hr
        simp only [Option.some.injEq, Prod.mk.injEq] at h
        obtain ⟨rfl, rfl⟩ := h
        rw [hfc, add_zero] at hr
        obtain ⟨κ, s0, srest, he, hl, hout⟩ := processEntry_some_inv hp
        have hcl2 : cl2 = insertIfAbsent cl
            ((taCollapse (s0 :: srest)).map (rot (e.phase + 0)))
            ((taCollapse (s0 :: srest)).map (rot (e.phase + 0))) := by
          simpa using congrArg Prod.fst hout
        have he1 : e1 = { e with
            isTimeAmp := if ∀ x ∈ s0 :: srest, x = s0 then true else e.isTimeAmp,
            key := some ((taCollapse (s0 :: srest)).map (rot (e.phase + 0))) } := by
          simpa using congrArg Prod.snd hout
        rw [hph] at hcl2 he1
        rw [hmapid] at hcl2 he1
        -- the collapsed shape is present in cl2, hence (with its self-keyed
        -- value) in clF after the rest of the first run
        have hdom2 : lookupA cl2 (taCollapse (s0 :: srest)) = some (taCollapse (s0 :: srest)) := by
          rw [hcl2]
          exact (hsk.insertIfAbsent_same _).lookup_of_isSome
            (hcl2 ▸ lookupA_insertIfAbsent_self_isSome cl _ _)
        have hskcl2 : selfKeyed cl2 := hcl2 ▸ hsk.insertIfAbsent_same _
        have hdomF : lookupA clF (taCollapse (s0 :: srest)) = some (taCollapse (s0 :: srest)) :=
          passEntries_mono rot rest cl2 0 clF restF hr _ _ hdom2
        -- compute the second run on the head entry
        obtain ⟨xr, hX⟩ := taCollapse_cons s0 srest
        have hkey1 : e1.key = some (s0 :: xr) := by
          rw [he1, ← hX]
        have hlF : lookupA clF (s0 :: xr) = some (s0 :: xr) := by
          rw [← hX]
          exact hdomF
        have hp2 := processEntry_eq_of_lookup rot clF (0 : A) hkey1 hlF
        have hphase1 : e1.phase = 0 := by
          rw [he1]
        have hXcoll : taCollapse (s0 :: xr) = taCollapse (s0 :: srest) := by
          rw [← hX, taCollapse_idem]
        have hmap1 : ∀ Y : List S, Y.map (rot (e1.phase + 0)) = Y := by
          intro Y
          rw [hphase1]
          exact hmapid Y
        rw [hXcoll, hmap1] at hp2
        have hiiaF : insertIfAbsent clF (taCollapse (s0 :: srest)) (taCollapse (s0 :: srest)) =
            clF := insertIfAbsent_of_isSome _ (by rw [hdomF]; rfl)
        rw [hiiaF] at hp2
        have hta : (if ∀ x ∈ s0 :: xr, x = s0 then true else e1.isTimeAmp) = e1.isTimeAmp := by
          by_cases hconst : ∀ x ∈ s0 :: srest, x = s0
          -- if the original shape was constant the collapsed one is [s0] and
          -- the flag was already set; otherwise the collapsed shape is the
          -- original non-constant one and the condition is false
          · have hcoll : taCollapse (s0 :: srest) = [s0] := by
              rw [taCollapse_cons_eq, if_pos hconst]
            rw [hcoll] at hX
            obtain rfl : xr = [] := by
              simpa using hX.symm
            have hta1 : e1.isTimeAmp = true := by
              rw [he1]
              simp only [if_pos hconst]
            rw [hta1]
            simp
          · have hcoll : taCollapse (s0 :: srest) = s0 :: srest := by
              rw [taCollapse_cons_eq, if_neg hconst]
            rw [hcoll] at hX
            obtain rfl : xr = srest := by
              simpa using hX.symm
            rw [if_neg hconst]
        have hrec : { e1 with isTimeAmp := e1.isTimeAmp, key := some (taCollapse (s0 :: srest)) } =
            e1 := by
          rw [he1]
        rw [hta, hrec] at hp2
        -- assemble
        have hIH := ih cl2 clF restF hskcl2 (fun x hx => hz x (by simp [hx])) hr
        rw [passEntries_cons, hp2]
        have hfc1 : e1.frameChange = 0 := by
          rw [he1]
          exact hfc
        rw [hfc1, add_zero]
        simp [hIH]

/-- C6 counterexample: one already-processed entry with phase `π` and zero
frame change.  The first Phase/Frame pass run rotates the shape `[1]` by
`exp(iπ) = -1` and rebinds the key to `[-1]`; running the pass a second time
re-applies the phase and rebinds the key to `[1] ≠ [-1]`, so zero additional
frame change does not make the pass idempotent. -/
theorem c6_counterexample :
    ((passEntries (fun (θ : ℝ) (z : ℂ) => Complex.exp (θ * Complex.I) * z) [([1], [1])] 0
        [⟨1, false, false, 0, 0, some [1], 1, Real.pi, 0⟩]).bind
      (fun r => (passEntries (fun (θ : ℝ) (z : ℂ) => Complex.exp (θ * Complex.I) * z) r.1 0
        r.2).map (fun r2 => r2.2.map LLElement.key))) ≠
    (passEntries (fun (θ : ℝ) (z : ℂ) => Complex.exp (θ * Complex.I) * z) [([1], [1])] 0
        [⟨1, false, false, 0, 0, some [1], 1, Real.pi, 0⟩]).map
      (fun r => r.2.map LLElement.key) := by
  have hneg : (-1 : ℂ) ≠ 1 := by norm_num
  have h1 : passEntries (fun (θ : ℝ) (z : ℂ) => Complex.exp (θ * Complex.I) * z) [([1], [1])] 0
      [⟨1, false, false, 0, 0, some [1], 1, Real.pi, 0⟩] =
      some ([([1], [1]), ([-1], [-1])],
        [⟨1, true, false, 0, 0, some [-1], 1, Real.pi, 0⟩]) := by
    simp [passEntries, processEntry, lookupA, insertIfAbsent, insertA, taCollapse, hash_pulse,
      Complex.exp_pi_mul_I, hneg]
  have h2 : passEntries (fun (θ : ℝ) (z : ℂ) => Complex.exp (θ * Complex.I) * z)
      [([1], [1]), ([-1], [-1])] 0 [⟨1, true, false, 0, 0, some [-1], 1, Real.pi, 0⟩] =
      some ([([1], [1]), ([-1], [-1])],
        [⟨1, true, false, 0, 0, some [1], 1, Real.pi, 0⟩]) := by
    simp [passEntries, processEntry, lookupA, insertIfAbsent, insertA, taCollapse, hash_pulse,
      Complex.exp_pi_mul_I, hneg]
  have hne1 : (1 : ℂ) ≠ -1 := by norm_num
  rw [h1]
  simp [h2, hne1]

/-- Witness for the amended C6: a single zero-phase, zero-frame-change entry
over a self-keyed library; re-running the pass changes nothing. -/
theorem c6_witness :
    passEntries rotQ [([1], [1])] 0 [⟨1, true, false, 0, 0, some [1], 1, 0, 0⟩] =
      some ([([1], [1])], [⟨1, true, false, 0, 0, some [1], 1, 0, 0⟩]) :=
  c6_zero_phase_idempotent rotQ (fun _ => rfl) [⟨1, false, false, 0, 0, some [1], 1, 0, 0⟩]
    [([1], [1])] [([1], [1])] [⟨1, true, false, 0, 0, some [1], 1, 0, 0⟩]
    (by decide) (by decide) (by decide)

/-! ### Library invariants for re-compilation stability -/

/-- Every channel library reachable from the compiler's operations stores
shapes under their own hash. -/
def GoodLib {S : Type} [DecidableEq S] (lib : WFLib S) : Prop :=
  ∀ c cl, lookupA lib c = some cl → selfKeyed cl

/-- A shape is present, under its own hash, in a channel's library. -/
def PresentW {S : Type} [DecidableEq S] (lib : WFLib S) (c : Chan) (k : List S) : Prop :=
  ∃ cl, lookupA lib c = some cl ∧ lookupA cl k = some k

theorem lookupA_insertA_selfkey {S : Type} [DecidableEq S] {cl : ChanLib S} {k : List S}
    (wf : List S) (h : lookupA cl k = some k) :
    lookupA (insertA cl wf wf) k = some k := by
  by_cases hk : k = wf
  · subst hk
    exact lookupA_insertA_self _ _ _
  · rw [lookupA_insertA_ne _ _ hk]
    exact h

theorem lookupA_isSome_insertA {κ β : Type} [DecidableEq κ] {l : List (κ × β)} {k : κ}
    (k' : κ) (v : β) (h : (lookupA l k).isSome) :
    (lookupA (insertA l k' v) k).isSome := by
  by_cases hk : k = k'
  · subst hk
    simp
  · rw [lookupA_insertA_ne _ _ hk]
    exact h

theorem GoodLib.insertA_chan {S : Type} [DecidableEq S] {lib : WFLib S}
    (hg : GoodLib lib) {chan : Chan} {clNew : ChanLib S} (hsk : selfKeyed clNew) :
    GoodLib (insertA lib chan clNew) := by
  intro c cl hc
  by_cases h : c = chan
  · subst h
    rw [lookupA_insertA_self] at hc
    obtain rfl := Option.some_injective _ hc
    exact hsk
  · rw [lookupA_insertA_ne _ _ h] at hc
    exact hg c cl hc

theorem PresentW.insertA_keep {S : Type} [DecidableEq S] {lib : WFLib S} {c : Chan}
    {k : List S} (hp : PresentW lib c k) {chan : Chan} {cl clNew : ChanLib S}
    (hchan : lookupA lib chan = some cl)
    (hmono : ∀ k', lookupA cl k' = some k' → lookupA clNew k' = some k') :
    PresentW (insertA lib chan clNew) c k := by
  obtain ⟨cl0, hc0, hk0⟩ := hp
  by_cases h : c = chan
  · subst h
    rw [hc0] at hchan
    obtain rfl := Option.some_injective _ hchan.symm
    exact ⟨clNew, lookupA_insertA_self _ _ _, hmono k hk0⟩
  · exact ⟨cl0, by rw [lookupA_insertA_ne _ _ h]; exact hc0, hk0⟩

theorem PresentW.insertA_newchan {S : Type} [DecidableEq S] {lib : WFLib S} {c : Chan}
    {k : List S} (hp : PresentW lib c k) {chan : Chan} {clNew : ChanLib S}
    (hchan : lookupA lib chan = none) :
    PresentW (insertA lib chan clNew) c k := by
  obtain ⟨cl0, hc0, hk0⟩ := hp
  by_cases h : c = chan
  · subst h
    rw [hc0] at hchan
    exact absurd hchan (by simp)
  · exact ⟨cl0, by rw [lookupA_insertA_ne _ _ h]; exact hc0, hk0⟩

theorem initChannels_dom {S : Type} [DecidableEq S] [Zero S] :
    ∀ (channels : List Chan) (lib : WFLib S) (c : Chan),
      ((lookupA lib c).isSome ∨ c ∈ channels) →
      (lookupA (initChannels channels lib) c).isSome := by
  intro channels
  induction channels with
  | nil =>
    intro lib c h
    rcases h with h | h
    · exact h
    · simp at h
  | cons ch rest ih =>
    intro lib c h
    have hstep : ∀ lib2 : WFLib S, ((lookupA lib2 c).isSome ∨ c ∈ rest) →
        (lookupA (initChannels rest lib2) c).isSome := fun lib2 => ih lib2 c
    simp only [initChannels, List.foldl_cons]
    split
    · rename_i hpres
      refine hstep _ ?_
      rcases h with h | h
      · exact Or.inl h
      · simp only [List.mem_cons] at h
        rcases h with h | h
        · subst h
          exact Or.inl hpres
        · exact Or.inr h
    · rename_i habs
      refine hstep _ ?_
      rcases h with h | h
      · exact Or.inl (lookupA_isSome_insertA _ _ h)
      · simp only [List.mem_cons] at h
        rcases h with h | h
        · subst h
          exact Or.inl (by simp)
        · exact Or.inr h

theorem initChannels_noop {S : Type} [DecidableEq S] [Zero S] :
    ∀ (channels : List Chan) (lib : WFLib S),
      (∀ c ∈ channels, (lookupA lib c).isSome) →
      initChannels channels lib = lib := by
  intro channels
  induction channels with
  | nil =>
    intro lib _
    rfl
  | cons ch rest ih =>
    intro lib h
    simp only [initChannels, List.foldl_cons]
    rw [if_pos (h ch (by simp))]
    exact ih lib (fun c hc => h c (by simp [hc]))

theorem initChannels_good {S : Type} [DecidableEq S] [Zero S] :
    ∀ (channels : List Chan) (lib : WFLib S), GoodLib lib →
      GoodLib (initChannels channels lib) := by
  intro channels
  induction channels with
  | nil =>
    intro lib hg
    exact hg
  | cons ch rest ih =>
    intro lib hg
    simp only [initChannels, List.foldl_cons]
    split
    · exact ih lib hg
    · refine ih _ (hg.insertA_chan ?_)
      intro q hq
      simp only [List.mem_singleton] at hq
      rw [hq]
      rfl

theorem initChannels_present {S : Type} [DecidableEq S] [Zero S] :
    ∀ (channels : List Chan) (lib : WFLib S) (c : Chan) (k : List S),
      PresentW lib c k → PresentW (initChannels channels lib) c k := by
  intro channels
  induction channels with
  | nil =>
    intro lib c k hp
    exact hp
  | cons ch rest ih =>
    intro lib c k hp
    simp only [initChannels, List.foldl_cons]
    split
    · exact ih lib c k hp
    · rename_i habs
      refine ih _ c k (hp.insertA_newchan ?_)
      cases hh : lookupA lib ch
      · rfl
      · rw [hh] at habs
        simp at habs

theorem addBlockChan_lib {S A : Type} [DecidableEq S] [Zero S] [Zero A]
    {block : PulseBlock S A} {chan : Chan}
    {st : WFLib S × List (Chan × List (LLElement S A))}
    {st2 : WFLib S × List (Chan × List (LLElement S A))}
    (h : addBlockChan block chan st = some st2) :
    (st2.1 = st.1) ∨
    ∃ (pulse : Pulse S A) (cl : ChanLib S),
      lookupA block.pulses chan = some pulse ∧ lookupA st.1 chan = some cl ∧
      st2.1 = insertA st.1 chan
        (insertA cl (hash_pulse (align pulse block.maxPts block.alignment 12).1)
          (align pulse block.maxPts block.alignment 12).1) := by
  unfold addBlockChan at h
  split at h
  · rename_i pulse hp
    split at h
    · exact absurd h (by simp)
    · rename_i cl hcl
      simp only [Option.some.injEq] at h
      exact Or.inr ⟨pulse, cl, hp, hcl, by rw [← h]⟩
  · simp only [Option.some.injEq] at h
    exact Or.inl (by rw [← h])

theorem addBlockChan_good {S A : Type} [DecidableEq S] [Zero S] [Zero A]
    {block : PulseBlock S A} {chan : Chan}
    {st st2 : WFLib S × List (Chan × List (LLElement S A))}
    (h : addBlockChan block chan st = some st2) (hg : GoodLib st.1) :
    GoodLib st2.1 := by
  rcases addBlockChan_lib h with hl | ⟨pulse, cl, _, hcl, hl⟩
  · rw [hl]
    exact hg
  · rw [hl]
    refine hg.insertA_chan ?_
    exact (hg chan cl hcl).insertA_same _

theorem addBlockChan_present {S A : Type} [DecidableEq S] [Zero S] [Zero A]
    {block : PulseBlock S A} {chan : Chan}
    {st st2 : WFLib S × List (Chan × List (LLElement S A))}
    (h : addBlockChan block chan st = some st2) {c : Chan} {k : List S}
    (hp : PresentW st.1 c k) : PresentW st2.1 c k := by
  rcases addBlockChan_lib h with hl | ⟨pulse, cl, _, hcl, hl⟩
  · rw [hl]
    exact hp
  · rw [hl]
    exact hp.insertA_keep hcl (fun k' hk' => lookupA_insertA_selfkey _ hk')

theorem addBlockChan_dom {S A : Type} [DecidableEq S] [Zero S] [Zero A]
    {block : PulseBlock S A} {chan : Chan}
    {st st2 : WFLib S × List (Chan × List (LLElement S A))}
    (h : addBlockChan block chan st = some st2) {c : Chan}
    (hd : (lookupA st.1 c).isSome) : (lookupA st2.1 c).isSome := by
  rcases addBlockChan_lib h with hl | ⟨pulse, cl, _, hcl, hl⟩
  · rw [hl]
    exact hd
  · rw [hl]
    exact lookupA_isSome_insertA _ _ hd

theorem addBlockChans_good {S A : Type} [DecidableEq S] [Zero S] [Zero A]
    (block : PulseBlock S A) :
    ∀ (cs : List Chan) (st st2 : WFLib S × List (Chan × List (LLElement S A))),
      addBlockChans block cs st = some st2 → GoodLib st.1 → GoodLib st2.1 := by
  intro cs
  induction cs with
  | nil =>
    intro st st2 h hg
    simp only [addBlockChans, Option.some.injEq] at h
    rw [← h]
    exact hg
  | cons c cs ih =>
    intro st st2 h hg
    simp only [addBlockChans] at h
    split at h
    · exact absurd h (by simp)
    · rename_i st1 h1
      exact ih st1 st2 h (addBlockChan_good h1 hg)

theorem addBlockChans_present {S A : Type} [DecidableEq S] [Zero S] [Zero A]
    (block : PulseBlock S A) :
    ∀ (cs : List Chan) (st st2 : WFLib S × List (Chan × List (LLElement S A))),
      addBlockChans block cs st = some st2 →
      ∀ c k, PresentW st.1 c k → PresentW st2.1 c k := by
  intro cs
  induction cs with
  | nil =>
    intro st st2 h c k hp
    simp only [addBlockChans, Option.some.injEq] at h
    rw [← h]
    exact hp
  | cons c0 cs ih =>
    intro st st2 h c k hp
    simp only [addBlockChans] at h
    split at h
    · exact absurd h (by simp)
    · rename_i st1 h1
      exact ih st1 st2 h c k (addBlockChan_present h1 hp)

theorem addBlockChans_dom {S A : Type} [DecidableEq S] [Zero S] [Zero A]
    (block : PulseBlock S A) :
    ∀ (cs : List Chan) (st st2 : WFLib S × List (Chan × List (LLElement S A))),
      addBlockChans block cs st = some st2 →
      ∀ c, (lookupA st.1 c).isSome → (lookupA st2.1 c).isSome := by
  intro cs
  induction cs with
  | nil =>
    intro st st2 h c hd
    simp only [addBlockChans, Option.some.injEq] at h
    rw [← h]
    exact hd
  | cons c0 cs ih =>
    intro st st2 h c hd
    simp only [addBlockChans] at h
    split at h
    · exact absurd h (by simp)
    · rename_i st1 h1
      exact ih st1 st2 h c (addBlockChan_dom h1 hd)

theorem buildLLs_good {S A : Type} [DecidableEq S] [Zero S] [Zero A] (channels : List Chan) :
    ∀ (seq : List (PulseBlock S A)) (st st2 : WFLib S × List (Chan × List (LLElement S A))),
      buildLLs channels seq st = some st2 → GoodLib st.1 → GoodLib st2.1 := by
  intro seq
  induction seq with
  | nil =>
    intro st st2 h hg
    simp only [buildLLs, Option.some.injEq] at h
    rw [← h]
    exact hg
  | cons block rest ih =>
    intro st st2 h hg
    simp only [buildLLs] at h
    split at h
    · exact ih st st2 h hg
    · split at h
      · exact absurd h (by simp)
      · rename_i st1 h1
        exact ih st1 st2 h (addBlockChans_good block channels st st1 h1 hg)

theorem buildLLs_present {S A : Type} [DecidableEq S] [Zero S] [Zero A] (channels : List Chan) :
    ∀ (seq : List (PulseBlock S A)) (st st2 : WFLib S × List (Chan × List (LLElement S A))),
      buildLLs channels seq st = some st2 →
      ∀ c k, PresentW st.1 c k → PresentW st2.1 c k := by
  intro seq
  induction seq with
  | nil =>
    intro st st2 h c k hp
    simp only [buildLLs, Option.some.injEq] at h
    rw [← h]
    exact hp
  | cons block rest ih =>
    intro st st2 h c k hp
    simp only [buildLLs] at h
    split at h
    · exact ih st st2 h c k hp
    · split at h
      · exact absurd h (by simp)
      · rename_i st1 h1
        exact ih st1 st2 h c k (addBlockChans_present block channels st st1 h1 c k hp)

theorem buildLLs_dom {S A : Type} [DecidableEq S] [Zero S] [Zero A] (channels : List Chan) :
    ∀ (seq : List (PulseBlock S A)) (st st2 : WFLib S × List (Chan × List (LLElement S A))),
      buildLLs channels seq st = some st2 →
      ∀ c, (lookupA st.1 c).isSome → (lookupA st2.1 c).isSome := by
  intro seq
  induction seq with
  | nil =>
    intro st st2 h c hd
    simp only [buildLLs, Option.some.injEq] at h
    rw [← h]
    exact hd
  | cons block rest ih =>
    intro st st2 h c hd
    simp only [buildLLs] at h
    split at h
    · exact ih st st2 h c hd
    · split at h
      · exact absurd h (by simp)
      · rename_i st1 h1
        exact ih st1 st2 h c (addBlockChans_dom block channels st st1 h1 c hd)

theorem passChannels_good {S A : Type} [DecidableEq S] [Zero A] [Add A] (rot : A → S → S) :
    ∀ (lls : List (Chan × List (LLElement S A))) (lib : WFLib S)
      (out : List (Chan × List (LLElement S A))) (libF : WFLib S),
      passChannels rot lls lib = some (out, libF) → GoodLib lib → GoodLib libF := by
  intro lls
  induction lls with
  | nil =>
    intro lib out libF h hg
    simp only [passChannels, Option.some.injEq, Prod.mk.injEq] at h
    rw [← h.2]
    exact hg
  | cons p rest ih =>
    intro lib out libF h hg
    obtain ⟨chan, ll⟩ := p
    simp only [passChannels] at h
    split at h
    · exact absurd h (by simp)
    · rename_i cl hcl
      split at h
      · exact absurd h (by simp)
      · rename_i cl2 ll2 hpe
        split at h
        · exact absurd h (by simp)
        · rename_i restOut libF2 hrest
          simp only [Option.some.injEq, Prod.mk.injEq] at h
          rw [← h.2]
          refine ih _ _ _ hrest (hg.insertA_chan ?_)
          exact passEntries_selfKeyed rot ll cl 0 cl2 ll2 (hg chan cl hcl) hpe

theorem passChannels_present {S A : Type} [DecidableEq S] [Zero A] [Add A] (rot : A → S → S) :
    ∀ (lls : List (Chan × List (LLElement S A))) (lib : WFLib S)
      (out : List (Chan × List (LLElement S A))) (libF : WFLib S),
      passChannels rot lls lib = some (out, libF) →
      ∀ c k, PresentW lib c k → PresentW libF c k := by
  intro lls
  induction lls with
  | nil =>
    intro lib out libF h c k hp
    simp only [passChannels, Option.some.injEq, Prod.mk.injEq] at h
    rw [← h.2]
    exact hp
  | cons p rest ih =>
    intro lib out libF h c k hp
    obtain ⟨chan, ll⟩ := p
    simp only [passChannels] at h
    split at h
    · exact absurd h (by simp)
    · rename_i cl hcl
      split at h
      · exact absurd h (by simp)
      · rename_i cl2 ll2 hpe
        split at h
        · exact absurd h (by simp)
        · rename_i restOut libF2 hrest
          simp only [Option.some.injEq, Prod.mk.injEq] at h
          rw [← h.2]
          refine ih _ _ _ hrest c k (hp.insertA_keep hcl ?_)
          exact fun k' hk' => passEntries_mono rot ll cl 0 cl2 ll2 hpe k' k' hk'

theorem passChannels_dom {S A : Type} [DecidableEq S] [Zero A] [Add A] (rot : A → S → S) :
    ∀ (lls : List (Chan × List (LLElement S A))) (lib : WFLib S)
      (out : List (Chan × List (LLElement S A))) (libF : WFLib S),
      passChannels rot lls lib = some (out, libF) →
      ∀ c, (lookupA lib c).isSome → (lookupA libF c).isSome := by
  intro lls
  induction lls with
  | nil =>
    intro lib out libF h c hd
    simp only [passChannels, Option.some.injEq, Prod.mk.injEq] at h
    rw [← h.2]
    exact hd
  | cons p rest ih =>
    intro lib out libF h c hd
    obtain ⟨chan, ll⟩ := p
    simp only [passChannels] at h
    split at h
    · exact absurd h (by simp)
    · rename_i cl hcl
      split at h
      · exact absurd h (by simp)
      · rename_i cl2 ll2 hpe
        split at h
        · exact absurd h (by simp)
        · rename_i restOut libF2 hrest
          simp only [Option.some.injEq, Prod.mk.injEq] at h
          rw [← h.2]
          exact ih _ _ _ hrest c (lookupA_isSome_insertA _ _ hd)

theorem passEntries_stable {S A : Type} [DecidableEq S] [Add A] (rot : A → S → S) :
    ∀ (ll : List (LLElement S A)) (cl : ChanLib S) (f : A) (cl1 : ChanLib S)
      (ll1 : List (LLElement S A)) (CL : ChanLib S),
      selfKeyed cl → selfKeyed CL →
      passEntries rot cl f ll = some (cl1, ll1) →
      (∀ k : List S, (lookupA cl1 k).isSome → lookupA CL k = some k) →
      passEntries rot CL f ll = some (CL, ll1) := by
  intro ll
  induction ll with
  | nil =>
    intro cl f cl1 ll1 CL hsk hskCL h hsub
    simp only [passEntries, Option.some.injEq, Prod.mk.injEq] at h
    obtain ⟨rfl, rfl⟩ := h
    rfl
  | cons e rest ih =>
    intro cl f cl1 ll1 CL hsk hskCL h hsub
    rw [passEntries_cons] at h
    split at h
    · exact absurd h (by simp)
    · rename_i cl2 e1 hp
      split at h
      · exact absurd h (by simp)
      · rename_i clF restF hr
        simp only [Option.some.injEq, Prod.mk.injEq] at h
        obtain ⟨rfl, rfl⟩ := h
        obtain ⟨κ, s0, srest, he, hl, hout⟩ := processEntry_some_inv hp
        obtain rfl : s0 :: srest = κ := hsk.lookup hl
        have hcl2 : cl2 = insertIfAbsent cl
            ((taCollapse (s0 :: srest)).map (rot (e.phase + f)))
            ((taCollapse (s0 :: srest)).map (rot (e.phase + f))) := by
          simpa using congrArg Prod.fst hout
        have he1 : e1 = { e with
            isTimeAmp := if ∀ x ∈ s0 :: srest, x = s0 then true else e.isTimeAmp,
            key := some ((taCollapse (s0 :: srest)).map (rot (e.phase + f))) } := by
          simpa using congrArg Prod.snd hout
        have hskcl2 : selfKeyed cl2 := hcl2 ▸ hsk.insertIfAbsent_same _
        -- the original key and the inserted rotated shape are both in cl2,
        -- hence in cl1 (after the rest of the run), hence in CL
        have hXdom2 : lookupA cl2 ((taCollapse (s0 :: srest)).map (rot (e.phase + f))) =
            some ((taCollapse (s0 :: srest)).map (rot (e.phase + f))) :=
          hcl2 ▸ (hsk.insertIfAbsent_same _).lookup_of_isSome
            (hcl2 ▸ lookupA_insertIfAbsent_self_isSome cl _ _)
        have hκdom2 : lookupA cl2 (s0 :: srest) = some (s0 :: srest) := by
          rw [hcl2]
          exact lookupA_insertIfAbsent_of_some _ _ hl
        have hXCL : lookupA CL ((taCollapse (s0 :: srest)).map (rot (e.phase + f))) =
            some ((taCollapse (s0 :: srest)).map (rot (e.phase + f))) := by
          refine hsub _ ?_
          rw [passEntries_mono rot rest cl2 (f + e.frameChange) clF restF hr _ _ hXdom2]
          rfl
        have hκCL : lookupA CL (s0 :: srest) = some (s0 :: srest) := by
          refine hsub _ ?_
          rw [passEntries_mono rot rest cl2 (f + e.frameChange) clF restF hr _ _ hκdom2]
          rfl
        have hp2 := processEntry_eq_of_lookup rot CL f he hκCL
        have hiia : insertIfAbsent CL ((taCollapse (s0 :: srest)).map (rot (e.phase + f)))
            ((taCollapse (s0 :: srest)).map (rot (e.phase + f))) = CL :=
          insertIfAbsent_of_isSome _ (by rw [hXCL]; rfl)
        rw [hiia, ← he1] at hp2
        have hIH := ih cl2 (f + e.frameChange) clF restF CL hskcl2 hskCL hr hsub
        rw [passEntries_cons, hp2]
        simp [hIH]

theorem addBlockChan_stable {S A : Type} [DecidableEq S] [Zero S] [Zero A]
    {block : PulseBlock S A} {chan : Chan} {lib : WFLib S}
    {lls lls' : List (Chan × List (LLElement S A))} {lib' : WFLib S}
    (h : addBlockChan block chan (lib, lls) = some (lib', lls'))
    {W : WFLib S}
    (hpres : ∀ c k, PresentW lib' c k → PresentW W c k)
    (hdom : ∀ c, (lookupA lib' c).isSome → (lookupA W c).isSome) :
    addBlockChan block chan (W, lls) = some (W, lls') := by
  unfold addBlockChan at h ⊢
  split at h
  · rename_i pulse hpul
    split at h
    · exact absurd h (by simp)
    · rename_i cl hcl
      simp only [Option.some.injEq, Prod.mk.injEq] at h
      obtain ⟨hlib', hlls'⟩ := h
      have hdomW : (lookupA W chan).isSome := by
        refine hdom chan ?_
        rw [← hlib']
        simp
      obtain ⟨CL, hCL⟩ := Option.isSome_iff_exists.mp hdomW
      have hwfW : lookupA CL
          (hash_pulse (align pulse block.maxPts block.alignment 12).1) =
          some (hash_pulse (align pulse block.maxPts block.alignment 12).1) := by
        have hp : PresentW lib' chan
            (hash_pulse (align pulse block.maxPts block.alignment 12).1) := by
          rw [← hlib']
          exact ⟨_, lookupA_insertA_self _ _ _, lookupA_insertA_self _ _ _⟩
        obtain ⟨cl2, h1, h2⟩ := hpres chan _ hp
        rw [hCL] at h1
        obtain rfl := Option.some_injective _ h1
        exact h2
      have hins : insertA CL (hash_pulse (align pulse block.maxPts block.alignment 12).1)
          (align pulse block.maxPts block.alignment 12).1 = CL := by
        have := insertA_eq_self hwfW
        simpa [hash_pulse] using this
      simp [hpul, hCL, hins, insertA_eq_self hCL, hlls']
  · rename_i hpul
    simp only [Option.some.injEq, Prod.mk.injEq] at h
    simp [hpul, h.2]

theorem addBlockChans_stable {S A : Type} [DecidableEq S] [Zero S] [Zero A]
    (block : PulseBlock S A) :
    ∀ (cs : List Chan) (lib : WFLib S) (lls lls' : List (Chan × List (LLElement S A)))
      (libF W : WFLib S),
      addBlockChans block cs (lib, lls) = some (libF, lls') →
      (∀ c k, PresentW libF c k → PresentW W c k) →
      (∀ c, (lookupA libF c).isSome → (lookupA W c).isSome) →
      addBlockChans block cs (W, lls) = some (W, lls') := by
  intro cs
  induction cs with
  | nil =>
    intro lib lls lls' libF W h hpres hdom
    simp only [addBlockChans, Option.some.injEq, Prod.mk.injEq] at h
    simp [addBlockChans, h.2]
  | cons c0 cs ih =>
    intro lib lls lls' libF W h hpres hdom
    simp only [addBlockChans] at h
    split at h
    · exact absurd h (by simp)
    · rename_i st1 h1
      obtain ⟨lib1, lls1⟩ := st1
      have hpres1 : ∀ c k, PresentW lib1 c k → PresentW W c k := by
        intro c k hp
        exact hpres c k (addBlockChans_present block cs (lib1, lls1) (libF, lls') h c k hp)
      have hdom1 : ∀ c, (lookupA lib1 c).isSome → (lookupA W c).isSome := by
        intro c hd
        exact hdom c (addBlockChans_dom block cs (lib1, lls1) (libF, lls') h c hd)
      have hhead := addBlockChan_stable h1 hpres1 hdom1
      have htail := ih lib1 lls1 lls' libF W h hpres hdom
      simp [addBlockChans, hhead, htail]

theorem buildLLs_stable {S A : Type} [DecidableEq S] [Zero S] [Zero A] (channels : List Chan) :
    ∀ (seq : List (PulseBlock S A)) (lib : WFLib S)
      (lls lls' : List (Chan × List (LLElement S A))) (libF W : WFLib S),
      buildLLs channels seq (lib, lls) = some (libF, lls') →
      (∀ c k, PresentW libF c k → PresentW W c k) →
      (∀ c, (lookupA libF c).isSome → (lookupA W c).isSome) →
      buildLLs channels seq (W, lls) = some (W, lls') := by
  intro seq
  induction seq with
  | nil =>
    intro lib lls lls' libF W h hpres hdom
    simp only [buildLLs, Option.some.injEq, Prod.mk.injEq] at h
    simp [buildLLs, h.2]
  | cons block rest ih =>
    intro lib lls lls' libF W h hpres hdom
    simp only [buildLLs] at h
    split at h
    · rename_i hz
      have := ih lib lls lls' libF W h hpres hdom
      simp [buildLLs, hz, this]
    · rename_i hz
      split at h
      · exact absurd h (by simp)
      · rename_i st1 h1
        obtain ⟨lib1, lls1⟩ := st1
        have hpres1 : ∀ c k, PresentW lib1 c k → PresentW W c k := by
          intro c k hp
          exact hpres c k (buildLLs_present channels rest (lib1, lls1) (libF, lls') h c k hp)
        have hdom1 : ∀ c, (lookupA lib1 c).isSome → (lookupA W c).isSome := by
          intro c hd
          exact hdom c (buildLLs_dom channels rest (lib1, lls1) (libF, lls') h c hd)
        have hhead := addBlockChans_stable block channels lib lls lls1 lib1 W h1 hpres1 hdom1
        have htail := ih lib1 lls1 lls' libF W h hpres hdom
        simp [buildLLs, hz, hhead, htail]

theorem passChannels_stable {S A : Type} [DecidableEq S] [Zero A] [Add A] (rot : A → S → S) :
    ∀ (lls : List (Chan × List (LLElement S A))) (lib : WFLib S)
      (out : List (Chan × List (LLElement S A))) (libF W : WFLib S),
      GoodLib lib → GoodLib W →
      passChannels rot lls lib = some (out, libF) →
      (∀ c k, PresentW libF c k → PresentW W c k) →
      (∀ c, (lookupA lib c).isSome → (lookupA W c).isSome) →
      passChannels rot lls W = some (out, W) := by
  intro lls
  induction lls with
  | nil =>
    intro lib out libF W hgl hgW h hpres hdom
    simp only [passChannels, Option.some.injEq, Prod.mk.injEq] at h
    simp [passChannels, h.1]
  | cons p rest ih =>
    intro lib out libF W hgl hgW h hpres hdom
    obtain ⟨chan, ll⟩ := p
    simp only [passChannels] at h
    split at h
    · exact absurd h (by simp)
    · rename_i cl hcl
      split at h
      · exact absurd h (by simp)
      · rename_i cl2 ll2 hpe
        split at h
        · exact absurd h (by simp)
        · rename_i restOut libF2 hrest
          simp only [Option.some.injEq, Prod.mk.injEq] at h
          obtain ⟨rfl, rfl⟩ := h
          have hskcl : selfKeyed cl := hgl chan cl hcl
          have hskcl2 : selfKeyed cl2 := passEntries_selfKeyed rot ll cl 0 cl2 ll2 hskcl hpe
          obtain ⟨CL, hCL⟩ := Option.isSome_iff_exists.mp (hdom chan (by rw [hcl]; rfl))
          have hskCL : selfKeyed CL := hgW chan CL hCL
          have hsub : ∀ k : List S, (lookupA cl2 k).isSome → lookupA CL k = some k := by
            intro k hk
            have hk2 : lookupA cl2 k = some k := hskcl2.lookup_of_isSome hk
            have hp1 : PresentW (insertA lib chan cl2) chan k :=
              ⟨cl2, lookupA_insertA_self _ _ _, hk2⟩
            have hp2 : PresentW libF2 chan k :=
              passChannels_present rot rest _ _ _ hrest chan k hp1
            obtain ⟨cl3, h1, h2⟩ := hpres chan k hp2
            rw [hCL] at h1
            obtain rfl := Option.some_injective _ h1
            exact h2
          have hpeW : passEntries rot CL 0 ll = some (CL, ll2) :=
            passEntries_stable rot ll cl 0 cl2 ll2 CL hskcl hskCL hpe hsub
          have hgl2 : GoodLib (insertA lib chan cl2) := hgl.insertA_chan hskcl2
          have hdom2 : ∀ c, (lookupA (insertA lib chan cl2) c).isSome →
              (lookupA W c).isSome := by
            intro c hd
            by_cases hc : c = chan
            · subst hc
              rw [hCL]
              rfl
            · rw [lookupA_insertA_ne _ _ hc] at hd
              exact hdom c hd
          have htail := ih (insertA lib chan cl2) restOut libF2 W hgl2 hgW hrest hpres hdom2
          have hinsW : insertA W chan CL = W := insertA_eq_self hCL
          simp [passChannels, hCL, hpeW, hinsW, htail]

theorem GoodLib_nil {S : Type} [DecidableEq S] : GoodLib ([] : WFLib S) := by
  intro c cl h
  simp [lookupA] at h

/-- C9 (corrected/amended): two successive invocations of `compile_sequence`
on the same input sequence without an explicitly supplied library return
identical results — but *not* because the library is created fresh.
`wfLib={}` is Python's single shared mutable default dictionary, so the
second invocation receives the very library the first one built (modelled:
the first run's output library `w` is passed in) and returns it with every
entry carried over: each init, assignment and insert-if-absent of the second
run is already satisfied by `w`, so on the same input the second run is a
no-op on the library and reproduces the first run's mini-LLs exactly. -/
theorem c9_second_invocation_id {S A : Type} [DecidableEq S] [Zero S] [Zero A] [Add A]
    (rot : A → S → S) (seq : List (PulseBlock S A))
    (r : List (Chan × List (LLElement S A))) (w : WFLib S)
    (h : compile_sequence rot seq [] = some (r, w)) :
    compile_sequence rot seq w = some (r, w) := by
  simp only [compile_sequence] at h
  split at h
  · exact absurd h (by simp)
  · rename_i lib1 lls1 hb
    split at h
    · exact absurd h (by simp)
    · rename_i lls2 lib2 hpc
      simp only [Option.some.injEq, Prod.mk.injEq] at h
      obtain ⟨rfl, rfl⟩ := h
      have hgood0 : GoodLib (initChannels (find_unique_channels seq) ([] : WFLib S)) :=
        initChannels_good _ _ GoodLib_nil
      have hgood1 : GoodLib lib1 := buildLLs_good _ seq _ _ hb hgood0
      have hgoodw : GoodLib lib2 := passChannels_good rot lls1 lib1 lls2 lib2 hpc hgood1
      have hdomw : ∀ c ∈ find_unique_channels seq, (lookupA lib2 c).isSome := by
        intro c hc
        refine passChannels_dom rot lls1 lib1 lls2 lib2 hpc c ?_
        refine buildLLs_dom _ seq _ _ hb c ?_
        exact initChannels_dom _ _ c (Or.inr hc)
      have hinitw : initChannels (find_unique_channels seq) lib2 = lib2 :=
        initChannels_noop _ _ hdomw
      have hpres1 : ∀ c k, PresentW lib1 c k → PresentW lib2 c k :=
        passChannels_present rot lls1 lib1 lls2 lib2 hpc
      have hdom1 : ∀ c, (lookupA lib1 c).isSome → (lookupA lib2 c).isSome :=
        passChannels_dom rot lls1 lib1 lls2 lib2 hpc
      have hbuildW : buildLLs (find_unique_channels seq) seq
          (lib2, (find_unique_channels seq).map (fun c => (c, []))) = some (lib2, lls1) :=
        buildLLs_stable _ seq _ _ lls1 lib1 lib2 hb hpres1 hdom1
      have hpassW : passChannels rot lls1 lib2 = some (lls2, lib2) :=
        passChannels_stable rot lls1 lib1 lls2 lib2 lib2 hgood1 hgoodw hpc
          (fun _ _ hp => hp) hdom1
      simp [compile_sequence, hinitw, hbuildW, hpassW]

/-- C9 counterexample: the freshness conjunct of the claim is false.  For a
concrete one-block sequence, the first invocation leaves the default library
populated; the second invocation therefore starts from that non-empty
library — not from a fresh `{}` — and returns it, every binding (the reserved
`TAZKey` entry and the pulse's waveform) already present in its input state
before the second invocation creates anything.  Only the identical-results
conjunct of the claim survives (the amended theorem above). -/
theorem c9_counterexample :
    compile_sequence rotQ [⟨[("a", ⟨[5], 0, 0⟩)], 1, "left"⟩] [] =
      some ([("a", [⟨1, true, false, 0, 0, some [5], 1, 0, 0⟩])],
            [("a", [([0], [0]), ([5], [5])])]) ∧
    ([("a", [([0], [0]), ([5], [5])])] : WFLib ℤ) ≠ [] ∧
    compile_sequence rotQ [⟨[("a", ⟨[5], 0, 0⟩)], 1, "left"⟩]
        [("a", [([0], [0]), ([5], [5])])] =
      some ([("a", [⟨1, true, false, 0, 0, some [5], 1, 0, 0⟩])],
            [("a", [([0], [0]), ([5], [5])])]) :=
  ⟨by rfl, by decide, by rfl⟩

/-- Witness for the amended C9: a concrete one-block sequence; the second run
over the persisted default library reproduces the first run's output
exactly. -/
theorem c9_witness :
    compile_sequence rotQ [⟨[("a", ⟨[5], 0, 0⟩)], 1, "left"⟩]
        [("a", [([0], [0]), ([5], [5])])] =
      some ([("a", [⟨1, true, false, 0, 0, some [5], 1, 0, 0⟩])],
            [("a", [([0], [0]), ([5], [5])])]) :=
  c9_second_invocation_id rotQ [⟨[("a", ⟨[5], 0, 0⟩)], 1, "left"⟩]
    [("a", [⟨1, true, false, 0, 0, some [5], 1, 0, 0⟩])]
    [("a", [([0], [0]), ([5], [5])])] (by rfl)
